import Mathlib

/-!
# Verification of the baby-crawler crawl core

A shallow embedding of the `baby_crawler` crawl engine
(`crawler.py`, `crawlerqueue.py`) and of the parts of Python's
`urllib.parse` standard library that the engine calls
(`urlsplit`, `urlunsplit`, `urlparse`, `urlunparse`, `urljoin`, `urldefrag`,
CPython 3.9 semantics), together with theorems settling the specification
claims about the URL pipeline, the deduplicating frontier queue, the worker
loop and the site-graph construction.

Python strings are modelled as `List Char`.  Fallible Python code (index
errors, `ValueError` from `urlsplit`, the latent `NameError` in
`_is_valid_link`) is modelled with `Option`: `none` is an uncaught exception.
The external fetch + parse collaborators are modelled as an oracle
`World : List Char → FetchOutcome` giving, per URL, either a typed fetch
failure or the parsed `(title, raw links)` of the fetched page, matching the
spec's collaborator boundaries.  Workers are modelled as the spec's
cooperatively scheduled job executions: one `workerStep` is one taken job
processed to completion.
-/

set_option maxHeartbeats 1000000

/-- `pys s` is the Python-string view (list of characters) of a literal. -/
def pys (s : String) : List Char := s.toList

/-! ## Python string primitives -/

/-- Split a list at the first occurrence of `c`:
`some (before, after)` if `c` occurs, `none` otherwise.
Models Python `s.split(c, 1)` / `s.find(c)`. -/
def splitFirst (c : Char) : List Char → Option (List Char × List Char)
  | [] => none
  | x :: xs =>
    if x = c then some ([], xs)
    else
      match splitFirst c xs with
      | none => none
      | some (a, b) => some (x :: a, b)

/-- Python `s.split(c)` (full split; `"".split(c) == [""]`). -/
def pySplit (c : Char) : List Char → List (List Char)
  | [] => [[]]
  | x :: xs =>
    if x = c then [] :: pySplit c xs
    else
      match pySplit c xs with
      | h :: t => (x :: h) :: t
      | [] => [[x]]

/-- Python `l[-n:]` on a list. -/
def pyTakeLast (n : Nat) (l : List (List Char)) : List (List Char) :=
  l.drop (l.length - n)

/-- Python `s.strip("/")`: remove all leading and trailing `'/'` characters. -/
def pyStripSlashes (l : List Char) : List Char :=
  ((l.dropWhile (· = '/')).reverse.dropWhile (· = '/')).reverse

/-- Index of the last occurrence of `c` (Python `s.rfind(c)` when present). -/
def pyRfindIdx (c : Char) (l : List Char) : Option Nat :=
  match splitFirst c l.reverse with
  | none => none
  | some (a, _) => some (l.length - 1 - a.length)

/-- Index of the first occurrence of `c` at or after `start`
(Python `s.find(c, start)` when present). -/
def findIdxFrom (c : Char) (start : Nat) (l : List Char) : Option Nat :=
  match splitFirst c (l.drop start) with
  | none => none
  | some (a, _) => some (start + a.length)

/-- Python `sep.join(pieces)` for a one-character separator. -/
def joinSep (sep : Char) : List (List Char) → List Char
  | [] => []
  | a :: rest =>
    match rest with
    | [] => a
    | _ :: _ => a ++ sep :: joinSep sep rest

/-! ## `urllib.parse` model (CPython 3.9 semantics) -/

/-- Result of `urlsplit`: `(scheme, netloc, path, query, fragment)`. -/
structure SplitResult where
  scheme : List Char
  netloc : List Char
  path : List Char
  query : List Char
  fragment : List Char
deriving DecidableEq

/-- `urllib.parse.scheme_chars`. -/
def schemeChars : List Char :=
  pys "abcdefghijklmnopqrstuvwxyzABCDEFGHIJKLMNOPQRSTUVWXYZ0123456789+-."

/-- A character that does not end the netloc (`_splitnetloc` scans to the
first of `'/'`, `'?'`, `'#'`). -/
def netlocChar (c : Char) : Bool :=
  !(c == '/' || c == '?' || c == '#')

/-- Split fragment (at the first `'#'`) and then query (at the first `'?'`)
off the non-netloc remainder, as `urlsplit` does with `allow_fragments`. -/
def splitFragQuery (scheme netloc url : List Char) : SplitResult :=
  let fr := match splitFirst '#' url with
    | some (a, b) => (a, b)
    | none => (url, [])
  let qr := match splitFirst '?' fr.1 with
    | some (a, b) => (a, b)
    | none => (fr.1, [])
  ⟨scheme, netloc, qr.1, qr.2, fr.2⟩

/-- The scheme-extraction step of `urlsplit`: lowercased scheme (or the
default) and the remaining url. -/
def splitScheme (url0 dscheme : List Char) : List Char × List Char :=
  match splitFirst ':' url0 with
  | some (pre, post) =>
    if pre ≠ [] ∧ pre.all (fun c => schemeChars.contains c) then
      (pre.map Char.toLower, post)
    else (dscheme, url0)
  | none => (dscheme, url0)

/-- The netloc-extraction step of `urlsplit` (`_splitnetloc` guarded by the
`url[:2] == '//'` test): `none` models the `ValueError("Invalid IPv6 URL")`
raised on a netloc with unbalanced square brackets. -/
def splitNetlocPart (url : List Char) : Option (List Char × List Char) :=
  match url with
  | '/' :: '/' :: rest =>
    if ((rest.takeWhile netlocChar).contains '['
          ∧ ¬ (rest.takeWhile netlocChar).contains ']')
        ∨ ((rest.takeWhile netlocChar).contains ']'
          ∧ ¬ (rest.takeWhile netlocChar).contains '[') then none
    else some (rest.takeWhile netlocChar, rest.dropWhile netlocChar)
  | _ => some ([], url)

/-- `urllib.parse.urlsplit(url, scheme=dscheme)`. -/
def pyUrlsplit (url0 dscheme : List Char) : Option SplitResult :=
  match splitNetlocPart (splitScheme url0 dscheme).2 with
  | none => none
  | some (netloc, url2) =>
    some (splitFragQuery (splitScheme url0 dscheme).1 netloc url2)

/-- `urllib.parse.urlunsplit`. -/
def pyUrlunsplit (s : SplitResult) : List Char :=
  let url := s.path
  let url :=
    if s.netloc ≠ [] ∨ (url ≠ [] ∧ url.take 2 = ['/', '/']) then
      let url := if url ≠ [] ∧ url.take 1 ≠ ['/'] then '/' :: url else url
      '/' :: '/' :: (s.netloc ++ url)
    else url
  let url := if s.scheme ≠ [] then s.scheme ++ ':' :: url else url
  let url := if s.query ≠ [] then url ++ '?' :: s.query else url
  if s.fragment ≠ [] then url ++ '#' :: s.fragment else url

/-- `urllib.parse.uses_relative`. -/
def usesRelative : List (List Char) :=
  ["", "ftp", "http", "gopher", "nntp", "imap", "wais", "file", "https",
   "shttp", "mms", "prospero", "rtsp", "rtspu", "sftp", "svn", "svn+ssh",
   "ws", "wss"].map String.toList

/-- `urllib.parse.uses_netloc`. -/
def usesNetloc : List (List Char) :=
  ["", "ftp", "http", "gopher", "nntp", "telnet", "imap", "wais", "file",
   "mms", "https", "shttp", "snews", "prospero", "rtsp", "rtspu", "rsync",
   "svn", "svn+ssh", "sftp", "nfs", "git", "git+ssh", "ws", "wss"].map
    String.toList

/-- `urllib.parse.uses_params`. -/
def usesParams : List (List Char) :=
  ["", "ftp", "hdl", "prospero", "http", "imap", "https", "shttp", "rtsp",
   "rtspu", "sip", "sips", "mms", "sftp", "tel"].map String.toList

/-- `urllib.parse._splitparams` (only reached when `';'` is in the path). -/
def splitparams (url : List Char) : List Char × List Char :=
  match (if url.contains '/' then
      match pyRfindIdx '/' url with
      | some r => findIdxFrom ';' r url
      | none => none
    else findIdxFrom ';' 0 url) with
  | none => (url, [])
  | some i => (url.take i, url.drop (i + 1))

/-- `urllib.parse.urlparse(url, scheme=dscheme)`: `urlsplit` plus splitting
`params` off the path for schemes in `uses_params`. -/
def pyUrlparse (url dscheme : List Char) : Option (SplitResult × List Char) :=
  match pyUrlsplit url dscheme with
  | none => none
  | some s =>
    if s.scheme ∈ usesParams ∧ s.path.contains ';' then
      let pr := splitparams s.path
      some ({ s with path := pr.1 }, pr.2)
    else some (s, [])

/-- `urllib.parse.urlunparse` (components plus params). -/
def pyUrlunparse (s : SplitResult) (params : List Char) : List Char :=
  pyUrlunsplit
    (if params ≠ [] then { s with path := s.path ++ ';' :: params } else s)

/-- `segments[1:-1] = filter(None, segments[1:-1])` in `urljoin`. -/
def keepEnds (l : List (List Char)) : List (List Char) :=
  match l with
  | [] => []
  | a :: rest =>
    match rest.reverse with
    | [] => [a]
    | z :: mid => a :: ((mid.reverse.filter (fun s => !s.isEmpty)) ++ [z])

/-- The `'..'` / `'.'` resolution loop of `urljoin`. -/
def resolveSegs (acc : List (List Char)) : List (List Char) → List (List Char)
  | [] => acc
  | seg :: rest =>
    if seg = pys ".." then resolveSegs acc.dropLast rest
    else if seg = pys "." then resolveSegs acc rest
    else resolveSegs (acc ++ [seg]) rest

/-- The segment list resolved by `urljoin`: `base_parts` (base path split on
`'/'`, last non-directory element dropped) joined with the relative path's
split, middle empties filtered — or just the split of an absolute path. -/
def joinSegments (bpath upath : List Char) : List (List Char) :=
  if upath.take 1 = ['/'] then pySplit '/' upath
  else
    keepEnds
      ((if (pySplit '/' bpath).getLast? ≠ some [] then
          (pySplit '/' bpath).dropLast
        else pySplit '/' bpath) ++ pySplit '/' upath)

/-- The `resolved_path` list of `urljoin` (with the trailing `''` appended
when the last segment is `'.'` or `'..'`). -/
def joinResolved (bpath upath : List Char) : List (List Char) :=
  if (joinSegments bpath upath).getLast? = some (pys ".")
      ∨ (joinSegments bpath upath).getLast? = some (pys "..") then
    resolveSegs [] (joinSegments bpath upath) ++ [[]]
  else resolveSegs [] (joinSegments bpath upath)

/-- `'/'.join(resolved_path) or '/'` in `urljoin`. -/
def joinPath (bpath upath : List Char) : List Char :=
  if joinSep '/' (joinResolved bpath upath) = [] then ['/']
  else joinSep '/' (joinResolved bpath upath)

/-- `urllib.parse.urljoin(base, url)` (CPython 3.9). -/
def pyUrljoin (base url : List Char) : Option (List Char) :=
  if base = [] then some url
  else if url = [] then some base
  else
    match pyUrlparse base [] with
    | none => none
    | some (b, bparams) =>
      match pyUrlparse url b.scheme with
      | none => none
      | some (u, uparams) =>
        if u.scheme ≠ b.scheme ∨ u.scheme ∉ usesRelative then some url
        else if u.scheme ∈ usesNetloc ∧ u.netloc ≠ [] then
          some (pyUrlunparse u uparams)
        else if u.path = [] ∧ uparams = [] then
          some (pyUrlunparse
            { u with
              netloc := if u.scheme ∈ usesNetloc then b.netloc else u.netloc,
              path := b.path,
              query := if u.query = [] then b.query else u.query }
            bparams)
        else
          some (pyUrlunparse
            { u with
              netloc := if u.scheme ∈ usesNetloc then b.netloc else u.netloc,
              path := joinPath b.path u.path }
            uparams)

/-- `urllib.parse.urldefrag(url).url`. -/
def pyUrldefrag (url : List Char) : Option (List Char) :=
  if url.contains '#' then
    match pyUrlsplit url [] with
    | none => none
    | some s => some (pyUrlunsplit { s with fragment := [] })
  else some url

/-! ## Crawler configuration

The instance attributes of `Crawler` that the URL pipeline reads
(`root_url`, `allow_subdomains`, `allow_queries`, `depth_by_desc`,
`start_url`), together with the two values read from the
`baby_crawler.crawler_config` module. -/

/-- Crawler instance configuration. -/
structure CrawlerCfg where
  start_url : List Char
  root_url : List Char
  allow_subdomains : Bool
  allow_queries : Bool
  depth_by_desc : Option Nat
  unwanded_file_exts : List (List Char)
  max_url_length : Nat
deriving DecidableEq

/-- Modelled from the spec: the module `baby_crawler.crawler_config`
(providing `unwanded_file_exts`) is not present under `src/`; per the spec,
the default extension denylist contains `png` and does not contain `html`. -/
def default_unwanded_file_exts : List (List Char) := [pys "png"]

/-- Modelled from the spec: the module `baby_crawler.crawler_config`
(providing `max_url_length`) is not present under `src/`; the spec only
requires a configured default maximum URL length generous enough for the
end-to-end scenario's links. -/
def default_max_url_length : Nat := 150

/-! ## URL scope / validity / normalization pipeline (`crawler.py`) -/

/-- `Crawler._has_root_url_only`. -/
def hasRootUrlOnly (cfg : CrawlerCfg) (url : List Char) : Option Bool :=
  match pyUrlsplit url [] with
  | none => none
  | some s => some (decide (s.netloc = cfg.root_url))

/-- `Crawler._has_root_url_or_subdomain`:
`".".join(url_base.split(".")[-2:]) == self.root_url`. -/
def hasRootUrlOrSubdomain (cfg : CrawlerCfg) (url : List Char) : Option Bool :=
  match pyUrlsplit url [] with
  | none => none
  | some s =>
    some (decide
      (joinSep '.' (pyTakeLast 2 (pySplit '.' s.netloc)) = cfg.root_url))

/-- `self._has_root_url`, selected in `__init__` by `allow_subdomains`. -/
def hasRoot (cfg : CrawlerCfg) (url : List Char) : Option Bool :=
  if cfg.allow_subdomains then hasRootUrlOrSubdomain cfg url
  else hasRootUrlOnly cfg url

/-- ASCII `[a-zA-Z]`. -/
def isAsciiAlpha (c : Char) : Bool :=
  ('a' ≤ c && c ≤ 'z') || ('A' ≤ c && c ≤ 'Z')

/-- Whether a tail matches `[a-zA-Z]+\\?` to the end of the string,
returning the captured letters. -/
def extTail (t : List Char) : Option (List Char) :=
  if t ≠ [] ∧ t.all isAsciiAlpha then some t
  else
    match t.reverse with
    | '\\' :: r =>
      if r ≠ [] ∧ r.all isAsciiAlpha then some r.reverse else none
    | _ => none

/-- Scan for the last `'.'` whose tail matches `[a-zA-Z]+\\?$`. -/
def findExtensionAux : List Char → Option (List Char)
  | [] => none
  | c :: rest =>
    match findExtensionAux rest with
    | some e => some e
    | none => if c = '.' then extTail rest else none

/-- `re.findall(r"\A.*\.([a-zA-Z]+)\\?\Z", link)`: the (at most one) captured
extension.  `.*` does not cross a newline, and since the matching tail is
letters (plus an optional backslash), any newline anywhere makes the anchored
pattern fail. -/
def findExtension (l : List Char) : Option (List Char) :=
  if l.contains '\n' then none else findExtensionAux l

/-- `Crawler._normalize_link`.  `none` models the `IndexError` raised by
`link[0]` on an empty link. -/
def normalizeLink (link parent_link : List Char) : Option (List Char) :=
  match link.head? with
  | none => none
  | some c0 =>
    match (if c0 = '/' then pyUrljoin parent_link link else some link) with
    | none => none
    | some nl =>
      match pyUrldefrag nl with
      | none => none
      | some d => some (pyStripSlashes d)

/-- `Crawler._remove_query`. -/
def removeQuery (url : List Char) : Option (List Char) :=
  match pyUrlsplit url [] with
  | none => none
  | some s => some (pyUrlunsplit { s with query := [] })

/-- The two leading guard groups of `_is_valid_link`: the protocol-relative
check for links starting with `'/'`, and the root-host plus `http`-prefix
checks otherwise. -/
def validPrefixCheck (cfg : CrawlerCfg) (link : List Char) (c0 : Char) :
    Option Bool :=
  if c0 = '/' then
    if link.take 2 = ['/', '/'] then some false else some true
  else
    match hasRoot cfg link with
    | none => none
    | some false => some false
    | some true =>
      if link.take 4 ≠ pys "http" then some false else some true

/-- `Crawler._is_valid_link`.  `none` models an uncaught exception:
`IndexError` on `link[0]` for the empty link, `ValueError` from `urlsplit`,
or — whenever `allow_queries` is truthy — the `NameError` raised when the
query-similarity guard evaluates the undefined names `parent_url` / `url`. -/
def isValidLink (cfg : CrawlerCfg) (link parent_link : List Char) :
    Option Bool :=
  match link.head? with
  | none => none
  | some c0 =>
    if c0 = '#' then some false
    else
      match validPrefixCheck cfg link c0 with
      | none => none
      | some false => some false
      | some true =>
        if (match findExtension link with
            | some e => decide (e ∈ cfg.unwanded_file_exts)
            | none => false) then some false
        else if cfg.allow_queries then none
        else
          match normalizeLink link parent_link with
          | none => none
          | some n =>
            if n.length > cfg.max_url_length then some false else some true

/-- `Crawler._filter_links`, consumed to a list (the generator is fully
drained by the caller's loop; an exception while draining is `none`). -/
def filterLinks (cfg : CrawlerCfg) (crawled : List (List Char)) :
    List (List Char) → (parent : List Char) → Option (List (List Char))
  | [], _ => some []
  | l :: ls, parent =>
    match isValidLink cfg l parent with
    | none => none
    | some false => filterLinks cfg crawled ls parent
    | some true =>
      match (if cfg.allow_queries then some l else removeQuery l) with
      | none => none
      | some l1 =>
        match normalizeLink l1 parent with
        | none => none
        | some l2 =>
          match filterLinks cfg crawled ls parent with
          | none => none
          | some rest =>
            some (if l2 ∈ crawled then rest else l2 :: rest)

/-! ## Frontier queue and crawl state (`crawlerqueue.py`, `crawler.py`) -/

/-- A job stored in `CrawlerQueue`: the tuple
`(items_added, url, parent_id, desc_level)` built by `CrawlerQueue._put` and
unpacked by `Crawler._link_worker` as
`page_id, page_link, parent_id, desc_level`. -/
structure CrawlJob where
  id : Nat
  url : List Char
  parent_id : Nat
  depth : Nat
deriving DecidableEq

/-- A node of the `networkx.DiGraph` site graph: its id and its `url` /
`title` attributes (`none` when the attribute was never assigned). -/
structure GraphNode where
  id : Nat
  url : Option (List Char)
  title : Option (List Char)
deriving DecidableEq

/-- The mutable state of one crawl: the `CrawlerQueue` internals
(`queue` in FIFO order, `all_items`, `items_added`, asyncio's
`_unfinished_tasks`), the `Crawler` instance state (`crawled_links`,
`added_tasks`, the site graph, `error_count`), plus two history fields used
to state theorems: `jobs_created` records every `CrawlJob` the queue ever
built, and `done_count` counts `task_done()` calls. -/
structure CrawlState where
  queue : List CrawlJob
  all_items : List (List Char × Nat × Nat)
  items_added : Nat
  unfinished : Nat
  crawled_links : List (List Char)
  added_tasks : List (List Char)
  nodes : List GraphNode
  edges : List (Nat × Nat)
  error_count : List (List Char × Nat)
  jobs_created : List CrawlJob
  done_count : Nat
deriving DecidableEq

/-- Python `set.add` on a list-as-set. -/
def addToSet (l : List (List Char)) (x : List Char) : List (List Char) :=
  if x ∈ l then l else l ++ [x]

/-- `defaultdict(int)` read. -/
def tallyGet (t : List (List Char × Nat)) (k : List Char) : Nat :=
  match t.find? (fun e => e.1 = k) with
  | some e => e.2
  | none => 0

/-- `self.error_count[k] += 1` on a `defaultdict(int)`. -/
def tallyBump (t : List (List Char × Nat)) (k : List Char) :
    List (List Char × Nat) :=
  if t.any (fun e => e.1 = k) then
    t.map (fun e => if e.1 = k then (e.1, e.2 + 1) else e)
  else t ++ [(k, 1)]

/-- `CrawlerQueue` `put_nowait` / awaited `put` on the unbounded queue:
the overridden `_put` drops duplicate items silently and otherwise assigns
the next id, while the `asyncio.Queue.put_nowait` epilogue increments
`_unfinished_tasks` unconditionally. -/
def queuePut (st : CrawlState) (item : List Char × Nat × Nat) : CrawlState :=
  let st1 :=
    if item ∈ st.all_items then st
    else
      { st with
        items_added := st.items_added + 1,
        queue := st.queue ++ [⟨st.items_added + 1, item.1, item.2.1, item.2.2⟩],
        all_items := st.all_items ++ [item],
        jobs_created :=
          st.jobs_created ++ [⟨st.items_added + 1, item.1, item.2.1, item.2.2⟩] }
  { st1 with unfinished := st1.unfinished + 1 }

/-- The submission step of `Crawler._process_link`'s expansion loop:
`if not link in self.added_tasks: self.added_tasks.add(link);
await queue.put((link, page_id, desc_level + 1))`. -/
def submitLink (st : CrawlState) (u : List Char) (pid dep : Nat) : CrawlState :=
  if u ∈ st.added_tasks then st
  else queuePut { st with added_tasks := st.added_tasks ++ [u] } (u, pid, dep)

/-- `networkx` `add_node(id, url=..., title=...)`: update attributes if the
node exists, else append it. -/
def nxAddNode (ns : List GraphNode) (i : Nat) (url title : Option (List Char)) :
    List GraphNode :=
  if ns.any (fun m => m.id = i) then
    ns.map (fun m => if m.id = i then { m with url := url, title := title } else m)
  else ns ++ [⟨i, url, title⟩]

/-- `networkx` `add_edge`: create a missing endpoint as a bare node. -/
def nxEnsureNode (ns : List GraphNode) (i : Nat) : List GraphNode :=
  if ns.any (fun m => m.id = i) then ns else ns ++ [⟨i, none, none⟩]

/-- `networkx.DiGraph` edge insertion (idempotent). -/
def nxAddEdge (es : List (Nat × Nat)) (p c : Nat) : List (Nat × Nat) :=
  if (p, c) ∈ es then es else es ++ [(p, c)]

/-- `Crawler._add_graph_edge`. -/
def addGraphEdge (st : CrawlState) (node_id parent_id : Nat)
    (url title : List Char) : CrawlState :=
  let ns := nxAddNode st.nodes node_id (some url) (some title)
  let ns := nxEnsureNode (nxEnsureNode ns parent_id) node_id
  { st with nodes := ns, edges := nxAddEdge st.edges parent_id node_id }

/-- The fetch + parse collaborator boundary for one URL: a typed fetch
failure (the `error_type` of the raised `FetchError`) or the parsed
`(title, raw links)` of the successfully fetched page. -/
inductive FetchOutcome where
  | ok (title : List Char) (links : List (List Char))
  | fail (error_type : List Char)
deriving DecidableEq

/-- The external world: what fetching + parsing each URL yields. -/
def World : Type := List Char → FetchOutcome

/-- `Crawler._process_link` for one taken job: on `FetchError` only the
error tally changes; on success the URL is recorded as crawled, the
page node and its edge are added, and — unless a truthy depth bound is
reached — the filtered links are submitted.  `none` is an exception other
than `FetchError` escaping the worker. -/
def processLink (cfg : CrawlerCfg) (w : World) (st : CrawlState)
    (job : CrawlJob) : Option CrawlState :=
  match w job.url with
  | FetchOutcome.fail etype =>
    some { st with error_count := tallyBump st.error_count etype }
  | FetchOutcome.ok title links =>
    let st1 := { st with crawled_links := addToSet st.crawled_links job.url }
    let st2 := addGraphEdge st1 job.id job.parent_id job.url title
    if (match cfg.depth_by_desc with
        | none => true
        | some d => d = 0 || job.depth < d) then
      match filterLinks cfg st2.crawled_links links job.url with
      | none => none
      | some out =>
        some (out.foldl (fun s u => submitLink s u job.id (job.depth + 1)) st2)
    else some st2

/-- One iteration of `Crawler._link_worker`: take the next job, process it,
then `queue.task_done()`.  With an empty queue the worker stays blocked on
`get` (no state change); `none` is the worker dying on an uncaught
exception, skipping `task_done()`. -/
def workerStep (cfg : CrawlerCfg) (w : World) (st : CrawlState) :
    Option CrawlState :=
  match st.queue with
  | [] => some st
  | job :: rest =>
    match processLink cfg w { st with queue := rest } job with
    | none => none
    | some st1 =>
      some { st1 with
             unfinished := st1.unfinished - 1,
             done_count := st1.done_count + 1 }

/-- Run `n` worker iterations. -/
def runSteps (cfg : CrawlerCfg) (w : World) : Nat → CrawlState →
    Option CrawlState
  | 0, st => some st
  | n + 1, st =>
    match workerStep cfg w st with
    | none => none
    | some st1 => runSteps cfg w n st1

/-- The constructor arguments of `Crawler` (with the two
`crawler_config` module values made explicit). -/
structure CrawlArgs where
  start_url : List Char
  allow_subdomains : Bool
  allow_queries : Bool
  depth_by_desc : Option Nat
  unwanded_file_exts : List (List Char)
  max_url_length : Nat
deriving DecidableEq

/-- `Crawler.__init__` followed by the seeding line of
`Crawler._run_crawler` (`queue.put_nowait((self.start_url, 0, 0))`):
produces the configuration and the crawl state in which the workers start.
`none` models an exception in the constructor (e.g. normalizing an empty
start URL). -/
def initCrawler (a : CrawlArgs) : Option (CrawlerCfg × CrawlState) :=
  match pyUrlsplit a.start_url [], normalizeLink a.start_url [] with
  | some sp, some n0 =>
    let seedq := pyStripSlashes a.start_url
    let cfg : CrawlerCfg :=
      { start_url := seedq, root_url := sp.netloc,
        allow_subdomains := a.allow_subdomains,
        allow_queries := a.allow_queries,
        depth_by_desc := a.depth_by_desc,
        unwanded_file_exts := a.unwanded_file_exts,
        max_url_length := a.max_url_length }
    let st : CrawlState :=
      { queue := [], all_items := [], items_added := 0, unfinished := 0,
        crawled_links := [n0], added_tasks := [],
        nodes := [⟨0, some seedq, none⟩], edges := [],
        error_count := [], jobs_created := [], done_count := 0 }
    some (cfg, queuePut st (seedq, 0, 0))
  | _, _ => none

/-! ## Spec-side auxiliary definition (for the normalization claim C7) -/

/-- The claim's reference value for `_normalize_link`: the base-resolved,
fragment-stripped input, before any slash stripping. -/
def resolvedDefrag (link parent_link : List Char) : Option (List Char) :=
  match link.head? with
  | none => none
  | some c0 =>
    match (if c0 = '/' then pyUrljoin parent_link link else some link) with
    | none => none
    | some nl => pyUrldefrag nl

/-! ## Concrete instances used by scenario theorems and witnesses -/

/-- The configuration of `Crawler("https://google.com", ..., allow_subdomains=True,
allow_queries=False)` with the spec's default denylist and length limit. -/
def cfgStd : CrawlerCfg :=
  { start_url := pys "https://google.com", root_url := pys "google.com",
    allow_subdomains := true, allow_queries := false,
    depth_by_desc := none,
    unwanded_file_exts := default_unwanded_file_exts,
    max_url_length := default_max_url_length }

/-- Same crawler with `allow_subdomains=False`. -/
def cfgNoSub : CrawlerCfg := { cfgStd with allow_subdomains := false }

/-- Same crawler with `allow_queries=True`. -/
def cfgQueries : CrawlerCfg := { cfgStd with allow_queries := true }

/-- The raw link set of the end-to-end scenario (a Python set: the duplicate
`2.html` occurs once), in the claim's order. -/
def scenarioLinks : List (List Char) :=
  [pys "https://google.com/1.html", pys "https://google.com/2.html",
   pys "https://google.com/3.html#test", pys "https://google.com/picture.png",
   pys "https://mail.google.com/", pys "/4.html", pys "#fragment",
   pys "ftp://google.com", pys "mailto:a@b.com"]

/-- `self.crawled_links` of the freshly constructed scenario crawler. -/
def scenarioCrawled : List (List Char) := [pys "https://google.com"]

/-- Arguments of the end-to-end crawler instance. -/
def stdArgs : CrawlArgs :=
  { start_url := pys "https://google.com", allow_subdomains := true,
    allow_queries := false, depth_by_desc := none,
    unwanded_file_exts := default_unwanded_file_exts,
    max_url_length := default_max_url_length }

/-- The crawl state produced by `initCrawler stdArgs`: seed queued with
id 1, root graph node 0 present. -/
def stSeed : CrawlState :=
  { queue := [⟨1, pys "https://google.com", 0, 0⟩],
    all_items := [(pys "https://google.com", 0, 0)],
    items_added := 1, unfinished := 1,
    crawled_links := [pys "https://google.com"],
    added_tasks := [],
    nodes := [⟨0, some (pys "https://google.com"), none⟩],
    edges := [], error_count := [],
    jobs_created := [⟨1, pys "https://google.com", 0, 0⟩],
    done_count := 0 }

/-- A small deterministic world: the seed links to one page, which links to
nothing; anything else is a 404. -/
def wOk : World := fun url =>
  if url = pys "https://google.com" then
    FetchOutcome.ok (pys "T") [pys "https://google.com/a.html"]
  else if url = pys "https://google.com/a.html" then
    FetchOutcome.ok (pys "A") []
  else FetchOutcome.fail (pys "404")

/-- A world in which every fetch fails with HTTP 404. -/
def w404 : World := fun _ => FetchOutcome.fail (pys "404")

/-- The seed job as stored by the queue. -/
def seedJob : CrawlJob := ⟨1, pys "https://google.com", 0, 0⟩

/-- The crawler configured with a depth bound of `0` (a falsy value in
Python). -/
def cfgDepth0 : CrawlerCfg := { cfgStd with depth_by_desc := some 0 }

/-- The crawler configured with `depth_by_desc = 1`. -/
def cfgDepth1 : CrawlerCfg := { cfgStd with depth_by_desc := some 1 }

/-- The crawl-state invariant maintained by every reachable crawl state.
`extra` counts jobs taken off the queue whose `task_done()` has not yet
run (0 between worker iterations). -/
structure GInv (cfg : CrawlerCfg) (st : CrawlState) (extra : Nat) : Prop where
  ids_eq : st.jobs_created.map (fun j => j.id) = List.range' 1 st.items_added
  urls_nodup : (st.jobs_created.map (fun j => j.url)).Nodup
  jobs_tracked : ∀ j ∈ st.jobs_created,
    j.url ∈ st.added_tasks ∨ (j.url = cfg.start_url ∧ j.depth = 0)
  items_tracked : ∀ t ∈ st.all_items,
    t.1 ∈ st.added_tasks ∨ t = (cfg.start_url, 0, 0)
  seed_crawled : cfg.start_url ∈ st.crawled_links ∨ '#' ∈ cfg.start_url
  unfinished_eq : st.unfinished = st.queue.length + extra
  node_zero : ∃ nd ∈ st.nodes, nd.id = 0 ∧ nd.url ≠ none
  queue_parent : ∀ j ∈ st.queue,
    ∃ nd ∈ st.nodes, nd.id = j.parent_id ∧ nd.url ≠ none
  queue_id_pos : ∀ j ∈ st.queue, j.id ≠ 0
  queue_id_le : ∀ j ∈ st.queue, j.id ≤ st.items_added
  queue_id_fresh : ∀ j ∈ st.queue, ∀ nd ∈ st.nodes, nd.id ≠ j.id
  queue_ids_nodup : (st.queue.map (fun j => j.id)).Nodup
  nodes_le : ∀ nd ∈ st.nodes, nd.id ≤ st.items_added
  edge_src : ∀ e ∈ st.edges, ∃ nd ∈ st.nodes, nd.id = e.1 ∧ nd.url ≠ none
  edge_tgt : ∀ e ∈ st.edges, ∃ nd ∈ st.nodes, nd.id = e.2
  edge_tgt_pos : ∀ e ∈ st.edges, e.2 ≠ 0
  incoming_once : ∀ nd ∈ st.nodes, nd.id ≠ 0 →
    (st.edges.filter (fun e => e.2 == nd.id)).length = 1

/-- The end-to-end crawler arguments with `allow_queries=True`. -/
def qArgs : CrawlArgs := { stdArgs with allow_queries := true }

/-- The crawl state after the seed job is processed against `w404`. -/
def st404 : CrawlState :=
  { queue := [],
    all_items := [(pys "https://google.com", 0, 0)],
    items_added := 1, unfinished := 0,
    crawled_links := [pys "https://google.com"],
    added_tasks := [],
    nodes := [⟨0, some (pys "https://google.com"), none⟩],
    edges := [], error_count := [(pys "404", 1)],
    jobs_created := [⟨1, pys "https://google.com", 0, 0⟩],
    done_count := 1 }

/-- The crawl state after both jobs of the `wOk` world have been processed
(two worker iterations from `stSeed`). -/
def stFin : CrawlState :=
  { queue := [],
    all_items := [(pys "https://google.com", 0, 0),
                  (pys "https://google.com/a.html", 1, 1)],
    items_added := 2, unfinished := 0,
    crawled_links := [pys "https://google.com", pys "https://google.com/a.html"],
    added_tasks := [pys "https://google.com/a.html"],
    nodes := [⟨0, some (pys "https://google.com"), none⟩,
              ⟨1, some (pys "https://google.com"), some (pys "T")⟩,
              ⟨2, some (pys "https://google.com/a.html"), some (pys "A")⟩],
    edges := [(0, 1), (1, 2)],
    error_count := [],
    jobs_created := [⟨1, pys "https://google.com", 0, 0⟩,
                     ⟨2, pys "https://google.com/a.html", 1, 1⟩],
    done_count := 2 }

/-! ## Claim C2: the end-to-end link-filtering scenario -/

/-- C2: filtering the scenario's raw link set discovered on seed
`https://google.com` (`allowQueries=false`, default denylist containing
`png` but not `html`, default length limit) yields exactly
`{https://google.com/1.html, https://google.com/2.html,
https://google.com/3.html, https://google.com/4.html,
https://mail.google.com}` when `allowSubdomains=true`, and that set minus
`https://mail.google.com` when `allowSubdomains=false`.  (The produced
lists enumerate those sets without repetition.) -/
theorem filter_links_scenario :
    filterLinks cfgStd scenarioCrawled scenarioLinks (pys "https://google.com")
      = some [pys "https://google.com/1.html", pys "https://google.com/2.html",
              pys "https://google.com/3.html", pys "https://mail.google.com",
              pys "https://google.com/4.html"]
    ∧ filterLinks cfgNoSub scenarioCrawled scenarioLinks
        (pys "https://google.com")
      = some [pys "https://google.com/1.html", pys "https://google.com/2.html",
              pys "https://google.com/3.html",
              pys "https://google.com/4.html"] := by
  constructor <;> rfl

/-! ## Claim C4: the query-similarity spider-trap guard -/

/-- C4: the code's query-similarity guard is the opposite of the claim and
defective.  With `allowQueries=true` the validity check evaluates
`jellyfish.jaro_winkler(urlsplit(parent_url).query, urlsplit(url).query)`
over the undefined names `parent_url` / `url` and raises `NameError`
(modelled `none`) for any link reaching that line; with `allowQueries=false`
the guard is short-circuited away, so a link whose query is identical to its
parent's query is *not* rejected (the check accepts it). -/
theorem query_similarity_guard_defect :
    isValidLink cfgQueries (pys "https://google.com/a?x=1")
      (pys "https://google.com/b?x=1") = none
    ∧ isValidLink cfgStd (pys "https://google.com/a?x=1")
        (pys "https://google.com/b?x=1") = some true := by
  constructor <;> rfl

/-! ## Lemmas about the string primitives -/

theorem contains_true_iff {l : List Char} {c : Char} :
    l.contains c = true ↔ c ∈ l := by
  simp [List.contains, List.elem_eq_mem]

theorem contains_false_iff {l : List Char} {c : Char} :
    l.contains c = false ↔ c ∉ l := by
  simp [List.contains, List.elem_eq_mem]

theorem splitFirst_none {c : Char} {l : List Char}
    (h : splitFirst c l = none) : c ∉ l := by
  induction l with
  | nil => simp
  | cons x xs ih =>
    simp only [splitFirst] at h
    split at h
    · exact absurd h (by simp)
    · rename_i hx
      rcases h2 : splitFirst c xs with _ | ⟨a, b⟩
      · simp only [List.mem_cons, not_or]
        exact ⟨fun hc => hx hc.symm, ih h2⟩
      · rw [h2] at h; simp at h

theorem splitFirst_some {c : Char} {l a b : List Char}
    (h : splitFirst c l = some (a, b)) : l = a ++ c :: b ∧ c ∉ a := by
  induction l generalizing a b with
  | nil => simp [splitFirst] at h
  | cons x xs ih =>
    simp only [splitFirst] at h
    split at h
    · rename_i hx
      cases h
      simp [hx]
    · rename_i hx
      rcases h2 : splitFirst c xs with _ | ⟨a', b'⟩
      · rw [h2] at h; simp at h
      · rw [h2] at h
        cases h
        obtain ⟨he, hm⟩ := ih h2
        constructor
        · rw [he]; rfl
        · simp only [List.mem_cons, not_or]
          exact ⟨fun hc => hx hc.symm, hm⟩

theorem takeWhile_slash_replicate (l : List Char) :
    ∃ n, l.takeWhile (fun c => c = '/') = List.replicate n '/' := by
  refine ⟨(l.takeWhile (fun c => c = '/')).length, ?_⟩
  rw [List.eq_replicate_iff]
  refine ⟨rfl, fun b hb => ?_⟩
  simpa using List.mem_takeWhile_imp hb

/-- The strip decomposition: `l` is its stripped core padded by slashes on
both sides, and the core neither starts nor ends with a slash. -/
theorem stripSlashes_spec (l : List Char) :
    (∃ n m, l = List.replicate n '/' ++ pyStripSlashes l
      ++ List.replicate m '/')
    ∧ (pyStripSlashes l).head? ≠ some '/'
    ∧ (pyStripSlashes l).getLast? ≠ some '/' := by
  obtain ⟨n, hn⟩ := takeWhile_slash_replicate l
  set d := l.dropWhile (fun c => c = '/') with hd
  obtain ⟨m, hm⟩ := takeWhile_slash_replicate d.reverse
  set w := d.reverse.dropWhile (fun c => c = '/') with hw
  have hs : pyStripSlashes l = w.reverse := rfl
  have h1 : l = List.replicate n '/' ++ d := by
    rw [← hn, hd, List.takeWhile_append_dropWhile]
  have h2 : d.reverse = List.replicate m '/' ++ w := by
    rw [← hm, hw, List.takeWhile_append_dropWhile]
  have h3 : d = w.reverse ++ List.replicate m '/' := by
    have := congrArg List.reverse h2
    rwa [List.reverse_reverse, List.reverse_append, List.reverse_replicate]
      at this
  have hdh : d.head? ≠ some '/' := by
    intro hcon
    have := List.head?_dropWhile_not (fun c => c = '/') l
    rw [← hd] at this
    rw [hcon] at this
    simp at this
  have hwh : w.head? ≠ some '/' := by
    intro hcon
    have := List.head?_dropWhile_not (fun c => c = '/') d.reverse
    rw [← hw] at this
    rw [hcon] at this
    simp at this
  refine ⟨⟨n, m, by rw [hs, h1, h3, List.append_assoc]⟩, ?_, ?_⟩
  · rw [hs]
    cases hwr : w.reverse with
    | nil => simp
    | cons y ys =>
      have hyd : d.head? = some y := by
        rw [h3, hwr]; rfl
      intro hcon
      simp only [List.head?_cons, Option.some.injEq] at hcon
      exact hdh (by rw [hyd, hcon])
  · rw [hs, List.getLast?_reverse]
    exact hwh

theorem stripSlashes_fixed {l : List Char} (h1 : l.head? ≠ some '/')
    (h2 : l.getLast? ≠ some '/') : pyStripSlashes l = l := by
  have hd : l.dropWhile (fun c => c = '/') = l := by
    cases l with
    | nil => rfl
    | cons x xs =>
      have hx : ¬(x = '/') := by
        intro h
        exact h1 (by simp [h])
      rw [List.dropWhile_cons_of_neg (by simpa using hx)]
  have hr : l.reverse.dropWhile (fun c => c = '/') = l.reverse := by
    cases hrev : l.reverse with
    | nil => rfl
    | cons y ys =>
      have hy0 : l.getLast? = some y := by
        rw [← List.head?_reverse, hrev]; rfl
      have hy : ¬(y = '/') := by
        intro h
        exact h2 (by rw [hy0, h])
      rw [List.dropWhile_cons_of_neg (by simpa using hy)]
  rw [pyStripSlashes, hd, hr, List.reverse_reverse]

theorem mem_of_mem_stripSlashes {l : List Char} {c : Char}
    (h : c ∈ pyStripSlashes l) : c ∈ l := by
  obtain ⟨⟨n, m, hdec⟩, -, -⟩ := stripSlashes_spec l
  rw [hdec]
  simp [h]

theorem mem_stripSlashes_of_mem {l : List Char} {c : Char} (h : c ∈ l)
    (hc : c ≠ '/') : c ∈ pyStripSlashes l := by
  obtain ⟨⟨n, m, hdec⟩, -, -⟩ := stripSlashes_spec l
  rw [hdec] at h
  simp only [List.mem_append, List.mem_replicate] at h
  rcases h with (h | h) | h
  · exact absurd h.2 hc
  · exact h
  · exact absurd h.2 hc

/-! ## Fragment-freeness of `urldefrag` output -/

theorem schemeChars_toLower_ne_hash :
    ∀ c ∈ schemeChars, Char.toLower c ≠ '#' := by decide

theorem splitScheme_no_hash {u d : List Char} (hd : '#' ∉ d) :
    '#' ∉ (splitScheme u d).1 := by
  unfold splitScheme
  rcases h : splitFirst ':' u with _ | ⟨pre, post⟩
  · exact hd
  · dsimp only
    by_cases hc : pre ≠ [] ∧ pre.all (fun c => schemeChars.contains c)
    · rw [if_pos hc]
      intro hmem
      simp only [List.mem_map] at hmem
      obtain ⟨c, hcm, hlow⟩ := hmem
      have hall := hc.2
      rw [List.all_eq_true] at hall
      have hcc : c ∈ schemeChars := contains_true_iff.mp (hall c hcm)
      exact schemeChars_toLower_ne_hash c hcc hlow
    · rw [if_neg hc]
      exact hd

theorem splitNetlocPart_no_hash {u nl u2 : List Char}
    (h : splitNetlocPart u = some (nl, u2)) : '#' ∉ nl := by
  unfold splitNetlocPart at h
  split at h
  · split at h
    · exact absurd h (by simp)
    · cases h
      intro hmem
      have := List.mem_takeWhile_imp hmem
      simp [netlocChar] at this
  · cases h
    simp

theorem splitFragQuery_no_hash (s nl u : List Char) :
    '#' ∉ (splitFragQuery s nl u).path
      ∧ '#' ∉ (splitFragQuery s nl u).query := by
  unfold splitFragQuery
  rcases hf : splitFirst '#' u with _ | ⟨a, b⟩
  · dsimp only
    have ha : '#' ∉ u := splitFirst_none hf
    rcases hq : splitFirst '?' u with _ | ⟨p, q⟩
    · dsimp only
      exact ⟨ha, by simp⟩
    · dsimp only
      obtain ⟨he, -⟩ := splitFirst_some hq
      constructor
      · intro hm; exact ha (by rw [he]; simp [hm])
      · intro hm; exact ha (by rw [he]; simp [hm])
  · dsimp only
    obtain ⟨-, ha⟩ := splitFirst_some hf
    rcases hq : splitFirst '?' a with _ | ⟨p, q⟩
    · dsimp only
      exact ⟨ha, by simp⟩
    · dsimp only
      obtain ⟨he, -⟩ := splitFirst_some hq
      constructor
      · intro hm; exact ha (by rw [he]; simp [hm])
      · intro hm; exact ha (by rw [he]; simp [hm])

theorem urlsplit_no_hash {u d : List Char} {s : SplitResult}
    (h : pyUrlsplit u d = some s) (hd : '#' ∉ d) :
    '#' ∉ s.scheme ∧ '#' ∉ s.netloc ∧ '#' ∉ s.path ∧ '#' ∉ s.query := by
  unfold pyUrlsplit at h
  rcases hn : splitNetlocPart (splitScheme u d).2 with _ | ⟨nl, u2⟩
  · rw [hn] at h; cases h
  · rw [hn] at h
    cases h
    refine ⟨splitScheme_no_hash hd, splitNetlocPart_no_hash hn, ?_, ?_⟩
    · exact (splitFragQuery_no_hash _ nl u2).1
    · exact (splitFragQuery_no_hash _ nl u2).2

theorem unsplit_no_hash {s : SplitResult} (h1 : '#' ∉ s.scheme)
    (h2 : '#' ∉ s.netloc) (h3 : '#' ∉ s.path) (h4 : '#' ∉ s.query)
    (h5 : s.fragment = []) : '#' ∉ pyUrlunsplit s := by
  have c1 : ¬(('#' : Char) = '/') := by decide
  have c2 : ¬(('#' : Char) = ':') := by decide
  have c3 : ¬(('#' : Char) = '?') := by decide
  unfold pyUrlunsplit
  rw [h5]
  dsimp only
  split_ifs <;>
    simp_all only [ne_eq, not_true_eq_false, not_false_eq_true, if_true,
      if_false, List.mem_append, List.mem_cons, List.not_mem_nil,
      or_false, false_or, not_or, reduceIte]

theorem defrag_no_hash {u v : List Char} (h : pyUrldefrag u = some v) :
    '#' ∉ v := by
  unfold pyUrldefrag at h
  split at h
  · rcases hs : pyUrlsplit u [] with _ | s
    · rw [hs] at h; cases h
    · rw [hs] at h
      cases h
      obtain ⟨a1, a2, a3, a4⟩ := urlsplit_no_hash hs (by simp)
      exact unsplit_no_hash a1 a2 a3 a4 rfl
  · cases h
    rename_i hc
    rw [Bool.not_eq_true] at hc
    exact contains_false_iff.mp hc

theorem defrag_of_no_hash {u : List Char} (h : '#' ∉ u) :
    pyUrldefrag u = some u := by
  simp [pyUrldefrag, h]

/-! ## Facts about `_normalize_link` output -/

theorem normalizeLink_spec {link parent v : List Char}
    (h : normalizeLink link parent = some v) :
    '#' ∉ v ∧ v.head? ≠ some '/' ∧ v.getLast? ≠ some '/' := by
  unfold normalizeLink at h
  rcases hh : link.head? with _ | c0
  · rw [hh] at h; cases h
  · rw [hh] at h
    dsimp only at h
    rcases hj : (if c0 = '/' then pyUrljoin parent link else some link) with
      _ | nl
    · rw [hj] at h; cases h
    · rw [hj] at h
      dsimp only at h
      rcases hdf : pyUrldefrag nl with _ | dd
      · rw [hdf] at h; cases h
      · rw [hdf] at h
        cases h
        obtain ⟨-, hhd, hlast⟩ := stripSlashes_spec dd
        refine ⟨?_, hhd, hlast⟩
        intro hm
        exact defrag_no_hash hdf (mem_of_mem_stripSlashes hm)

theorem normalizeLink_idem {link parent v : List Char}
    (h : normalizeLink link parent = some v) (hne : v ≠ []) :
    normalizeLink v parent = some v := by
  obtain ⟨hnh, hhd, hlast⟩ := normalizeLink_spec h
  unfold normalizeLink
  rcases hv : v.head? with _ | c
  · exact absurd (List.head?_eq_none_iff.mp hv) hne
  · have hc : ¬(c = '/') := by
      intro hceq
      exact hhd (by rw [hv, hceq])
    dsimp only
    rw [if_neg hc]
    dsimp only
    rw [defrag_of_no_hash hnh]
    dsimp only
    rw [stripSlashes_fixed hhd hlast]

/-! ## Claim C3: idempotence of normalization -/

/-- C3 counterexample: the claim fails as stated.  `u = "/"` is accepted by
the validity check against base `b = ""`, `normalize("/", "")` returns the
empty string, and re-normalizing that result raises `IndexError` on
`link[0]` (modelled `none`), so `normalize(normalize(u,b),b)` is not
`normalize(u,b)`. -/
theorem normalize_idempotence_counterexample :
    isValidLink cfgStd (pys "/") [] = some true
    ∧ normalizeLink (pys "/") [] = some []
    ∧ (normalizeLink (pys "/") []).bind (fun v => normalizeLink v []) = none
    ∧ (normalizeLink (pys "/") []).bind (fun v => normalizeLink v [])
        ≠ normalizeLink (pys "/") [] := by
  exact ⟨rfl, rfl, rfl, by decide⟩

/-- C3 (amended): normalization is idempotent on every accepted link whose
first normalization is non-empty: if `u` passes the validity check against
base `b` and `normalize(u, b)` returns a non-empty `v`, then
`normalize(v, b) = v`.  (The only failures are inputs normalizing to the
empty string, where the second application raises `IndexError`.) -/
theorem normalize_idempotent_on_nonempty (cfg : CrawlerCfg)
    (u b v : List Char) (_hvalid : isValidLink cfg u b = some true)
    (h : normalizeLink u b = some v) (hne : v ≠ []) :
    normalizeLink v b = some v :=
  normalizeLink_idem h hne

theorem normalize_idempotent_on_nonempty_witness :
    isValidLink cfgStd (pys "/help") (pys "https://google.com") = some true
    ∧ normalizeLink (pys "/help") (pys "https://google.com")
        = some (pys "https://google.com/help")
    ∧ normalizeLink (pys "https://google.com/help")
        (pys "https://google.com") = some (pys "https://google.com/help") :=
  ⟨rfl, rfl,
    normalize_idempotent_on_nonempty cfgStd (pys "/help")
      (pys "https://google.com") (pys "https://google.com/help") rfl rfl
      (by decide)⟩

/-! ## Claim C7: what normalization does to a URL -/

/-- C7 counterexample: `_normalize_link` uses `.strip("/")`, which removes
*all* trailing (and leading) slashes, not a single trailing slash: on
`"https://google.com//"` (absolute, fragment-free, so the base-resolved
fragment-stripped input is the string itself) the result drops two
characters, so it is neither the resolved input nor the resolved input minus
one trailing `'/'`. -/
theorem normalize_trailing_slashes_counterexample :
    normalizeLink (pys "https://google.com//") (pys "x")
      = some (pys "https://google.com")
    ∧ resolvedDefrag (pys "https://google.com//") (pys "x")
      = some (pys "https://google.com//")
    ∧ pys "https://google.com" ≠ pys "https://google.com//"
    ∧ pys "https://google.com" ++ ['/'] ≠ pys "https://google.com//" := by
  exact ⟨rfl, rfl, by decide, by decide⟩

/-- C7 (amended): for every URL and base URL on which `_normalize_link`
returns, it resolves a root-relative link against the base, leaves an
absolute link otherwise untouched, strips any fragment, and then strips
*every* leading and trailing `'/'` character (not just a single trailing
one): the result is the fragment-stripped, base-resolved input with all
outer slashes removed, and itself neither starts nor ends with `'/'`. -/
theorem normalize_strip_decomposition (u b v : List Char)
    (h : normalizeLink u b = some v) :
    ∃ r n m, resolvedDefrag u b = some r
      ∧ r = List.replicate n '/' ++ v ++ List.replicate m '/'
      ∧ v.head? ≠ some '/' ∧ v.getLast? ≠ some '/' := by
  unfold normalizeLink at h
  unfold resolvedDefrag
  rcases hh : u.head? with _ | c0
  · rw [hh] at h; cases h
  · rw [hh] at h
    dsimp only at h ⊢
    rcases hj : (if c0 = '/' then pyUrljoin b u else some u) with _ | nl
    · rw [hj] at h; cases h
    · rw [hj] at h
      dsimp only at h ⊢
      rcases hdf : pyUrldefrag nl with _ | dd
      · rw [hdf] at h; cases h
      · rw [hdf] at h
        dsimp only at h
        cases h
        obtain ⟨⟨n, m, hdec⟩, hhd, hlast⟩ := stripSlashes_spec dd
        exact ⟨dd, n, m, rfl, hdec, hhd, hlast⟩

theorem normalize_strip_decomposition_witness :
    normalizeLink (pys "https://google.com/") []
      = some (pys "https://google.com")
    ∧ (∃ r n m,
        resolvedDefrag (pys "https://google.com/") [] = some r
        ∧ r = List.replicate n '/' ++ pys "https://google.com"
            ++ List.replicate m '/'
        ∧ (pys "https://google.com").head? ≠ some '/'
        ∧ (pys "https://google.com").getLast? ≠ some '/') :=
  ⟨rfl, normalize_strip_decomposition (pys "https://google.com/") []
    (pys "https://google.com") rfl⟩

/-! ## Character-membership lemmas for the `urljoin` pipeline -/

theorem splitFirst_eq_none {c : Char} {l : List Char} (h : c ∉ l) :
    splitFirst c l = none := by
  rcases hs : splitFirst c l with _ | ⟨a, b⟩
  · rfl
  · obtain ⟨he, -⟩ := splitFirst_some hs
    exact absurd (by rw [he]; simp) h

theorem pySplit_ne_nil (c : Char) (l : List Char) : pySplit c l ≠ [] := by
  cases l with
  | nil => simp [pySplit]
  | cons x xs =>
    simp only [pySplit]
    split
    · simp
    · split <;> simp

theorem mem_of_mem_pySplit {c x : Char} {l : List Char} : ∀ {s : List Char},
    s ∈ pySplit c l → x ∈ s → x ∈ l := by
  induction l with
  | nil =>
    intro s hs hx
    simp only [pySplit, List.mem_singleton] at hs
    subst hs
    cases hx
  | cons y ys ih =>
    intro s hs hx
    by_cases hy : y = c
    · rw [pySplit, if_pos hy] at hs
      rcases List.mem_cons.mp hs with hs | hs
      · subst hs; cases hx
      · exact List.mem_cons_of_mem y (ih hs hx)
    · rw [pySplit, if_neg hy] at hs
      rcases hps : pySplit c ys with _ | ⟨h0, t0⟩
      · exact absurd hps (pySplit_ne_nil c ys)
      · rw [hps] at hs
        rcases List.mem_cons.mp hs with hs | hs
        · subst hs
          rcases List.mem_cons.mp hx with hx | hx
          · exact hx ▸ List.mem_cons_self y ys
          · have hh0 : h0 ∈ pySplit c ys := by
              rw [hps]; exact List.mem_cons_self h0 t0
            exact List.mem_cons_of_mem y (ih hh0 hx)
        · exact List.mem_cons_of_mem y (ih (by rw [hps]; exact List.mem_cons_of_mem h0 hs) hx)

theorem mem_joinSep {sep x : Char} {L : List (List Char)}
    (h : x ∈ joinSep sep L) : x = sep ∨ ∃ s ∈ L, x ∈ s := by
  induction L with
  | nil => cases h
  | cons a rest ih =>
    cases rest with
    | nil =>
      exact Or.inr ⟨a, List.mem_singleton_self a, h⟩
    | cons b rest2 =>
      have he : joinSep sep (a :: b :: rest2)
          = a ++ sep :: joinSep sep (b :: rest2) := rfl
      rw [he] at h
      rcases List.mem_append.mp h with h1 | h1
      · exact Or.inr ⟨a, List.mem_cons_self _ _, h1⟩
      · rcases List.mem_cons.mp h1 with h1 | h1
        · exact Or.inl h1
        · rcases ih h1 with h2 | ⟨s, hs, hxs⟩
          · exact Or.inl h2
          · exact Or.inr ⟨s, List.mem_cons_of_mem a hs, hxs⟩

theorem mem_resolveSegs {segs : List (List Char)} :
    ∀ {acc : List (List Char)} {s : List Char},
    s ∈ resolveSegs acc segs → s ∈ acc ∨ s ∈ segs := by
  induction segs with
  | nil =>
    intro acc s h
    exact Or.inl h
  | cons seg rest ih =>
    intro acc s h
    simp only [resolveSegs] at h
    split_ifs at h
    · rcases ih h with h1 | h1
      · exact Or.inl ((List.dropLast_sublist acc).mem h1)
      · exact Or.inr (List.mem_cons_of_mem seg h1)
    · rcases ih h with h1 | h1
      · exact Or.inl h1
      · exact Or.inr (List.mem_cons_of_mem seg h1)
    · rcases ih h with h1 | h1
      · rcases List.mem_append.mp h1 with h2 | h2
        · exact Or.inl h2
        · refine Or.inr ?_
          have : s = seg := by simpa using h2
          exact this ▸ List.mem_cons_self seg rest
      · exact Or.inr (List.mem_cons_of_mem seg h1)

theorem mem_keepEnds {L : List (List Char)} {s : List Char}
    (h : s ∈ keepEnds L) : s ∈ L := by
  cases L with
  | nil => exact h
  | cons a rest =>
    rcases hrev : rest.reverse with _ | ⟨z, mid⟩
    · have : keepEnds (a :: rest) = [a] := by
        rw [keepEnds, hrev]
      rw [this] at h
      rcases List.mem_cons.mp h with h | h
      · exact h ▸ List.mem_cons_self a rest
      · cases h
    · have hrest : rest = mid.reverse ++ [z] := by
        have := congrArg List.reverse hrev
        simpa using this
      have : keepEnds (a :: rest)
          = a :: ((mid.reverse.filter (fun s => !s.isEmpty)) ++ [z]) := by
        rw [keepEnds, hrev]
      rw [this] at h
      rcases List.mem_cons.mp h with h | h
      · exact h ▸ List.mem_cons_self a rest
      · rcases List.mem_append.mp h with h1 | h1
        · have hf := (List.mem_filter.mp h1).1
          refine List.mem_cons_of_mem a ?_
          rw [hrest]
          exact List.mem_append.mpr (Or.inl hf)
        · have h2 : s = z := by simpa using h1
          refine List.mem_cons_of_mem a ?_
          rw [hrest, h2]
          simp

theorem mem_splitparams_fst {p : List Char} {x : Char}
    (h : x ∈ (splitparams p).1) : x ∈ p := by
  unfold splitparams at h
  split at h
  · exact h
  · exact List.mem_of_mem_take h

theorem mem_splitparams_snd {p : List Char} {x : Char}
    (h : x ∈ (splitparams p).2) : x ∈ p := by
  unfold splitparams at h
  split at h
  · cases h
  · exact List.mem_of_mem_drop h

theorem splitScheme_snd_cases (u d : List Char) :
    (splitScheme u d).2 = u
      ∨ ∃ pre, u = pre ++ ':' :: (splitScheme u d).2 := by
  unfold splitScheme
  rcases hsplit : splitFirst ':' u with _ | ⟨pre, post⟩
  · exact Or.inl rfl
  · dsimp only
    split_ifs
    · exact Or.inr ⟨pre, (splitFirst_some hsplit).1⟩
    · exact Or.inl rfl

theorem mem_splitScheme_snd {u d : List Char} {x : Char}
    (h : x ∈ (splitScheme u d).2) : x ∈ u := by
  rcases splitScheme_snd_cases u d with hc | ⟨pre, hc⟩
  · rwa [hc] at h
  · rw [hc]; simp [h]

theorem mem_splitNetlocPart_snd {u nl u2 : List Char} {x : Char}
    (h : splitNetlocPart u = some (nl, u2)) (hx : x ∈ u2) : x ∈ u := by
  unfold splitNetlocPart at h
  split at h
  · split at h
    · cases h
    · cases h
      exact List.mem_cons_of_mem _ (List.mem_cons_of_mem _
        ((List.dropWhile_sublist netlocChar).mem hx))
  · cases h
    exact hx

theorem urlsplit_fragment_empty {u d : List Char} {s : SplitResult}
    (hu : '#' ∉ u) (h : pyUrlsplit u d = some s) : s.fragment = [] := by
  unfold pyUrlsplit at h
  rcases hn : splitNetlocPart (splitScheme u d).2 with _ | ⟨nl, u2⟩
  · rw [hn] at h; cases h
  · rw [hn] at h
    cases h
    have hu2 : '#' ∉ u2 := fun hm =>
      hu (mem_splitScheme_snd (mem_splitNetlocPart_snd hn hm))
    unfold splitFragQuery
    rw [splitFirst_eq_none hu2]

theorem urlparse_no_hash {u d : List Char} {s : SplitResult}
    {params : List Char} (h : pyUrlparse u d = some (s, params))
    (hd : '#' ∉ d) :
    '#' ∉ s.scheme ∧ '#' ∉ s.netloc ∧ '#' ∉ s.path ∧ '#' ∉ s.query
      ∧ '#' ∉ params := by
  unfold pyUrlparse at h
  rcases hs : pyUrlsplit u d with _ | s0
  · rw [hs] at h; cases h
  · rw [hs] at h
    obtain ⟨h1, h2, h3, h4⟩ := urlsplit_no_hash hs hd
    dsimp only at h
    split_ifs at h
    · cases h
      exact ⟨h1, h2, fun hm => h3 (mem_splitparams_fst hm), h4,
        fun hm => h3 (mem_splitparams_snd hm)⟩
    · cases h
      exact ⟨h1, h2, h3, h4, by simp⟩

theorem urlparse_fragment_empty {u d : List Char} {s : SplitResult}
    {params : List Char} (hu : '#' ∉ u)
    (h : pyUrlparse u d = some (s, params)) : s.fragment = [] := by
  unfold pyUrlparse at h
  rcases hs : pyUrlsplit u d with _ | s0
  · rw [hs] at h; cases h
  · rw [hs] at h
    have hfe := urlsplit_fragment_empty hu hs
    dsimp only at h
    split_ifs at h <;> cases h <;> exact hfe

theorem mem_joinSegments {bp up : List Char} {s : List Char} {x : Char}
    (hs : s ∈ joinSegments bp up) (hx : x ∈ s) : x ∈ bp ∨ x ∈ up := by
  unfold joinSegments at hs
  split_ifs at hs
  · exact Or.inr (mem_of_mem_pySplit hs hx)
  · rcases List.mem_append.mp (mem_keepEnds hs) with h1 | h1
    · exact Or.inl (mem_of_mem_pySplit ((List.dropLast_sublist _).mem h1) hx)
    · exact Or.inr (mem_of_mem_pySplit h1 hx)
  · rcases List.mem_append.mp (mem_keepEnds hs) with h1 | h1
    · exact Or.inl (mem_of_mem_pySplit h1 hx)
    · exact Or.inr (mem_of_mem_pySplit h1 hx)

theorem mem_joinPath {bp up : List Char} {x : Char} (h : x ∈ joinPath bp up) :
    x = '/' ∨ x ∈ bp ∨ x ∈ up := by
  unfold joinPath at h
  split_ifs at h
  · exact Or.inl (by simpa using h)
  · rcases mem_joinSep h with h1 | ⟨s, hs, hxs⟩
    · exact Or.inl h1
    · unfold joinResolved at hs
      split_ifs at hs
      · rcases List.mem_append.mp hs with h2 | h2
        · rcases mem_resolveSegs h2 with h3 | h3
          · cases h3
          · rcases mem_joinSegments h3 hxs with h4 | h4
            · exact Or.inr (Or.inl h4)
            · exact Or.inr (Or.inr h4)
        · have hse : s = [] := by simpa using h2
          rw [hse] at hxs
          cases hxs
      · rcases mem_resolveSegs hs with h3 | h3
        · cases h3
        · rcases mem_joinSegments h3 hxs with h4 | h4
          · exact Or.inr (Or.inl h4)
          · exact Or.inr (Or.inr h4)

theorem unparse_no_hash {s : SplitResult} {params : List Char}
    (h1 : '#' ∉ s.scheme) (h2 : '#' ∉ s.netloc) (h3 : '#' ∉ s.path)
    (h4 : '#' ∉ s.query) (h5 : '#' ∉ params) (h6 : s.fragment = []) :
    '#' ∉ pyUrlunparse s params := by
  unfold pyUrlunparse
  split_ifs
  · refine unsplit_no_hash h1 h2 ?_ h4 h6
    intro hm
    rcases List.mem_append.mp hm with hm1 | hm1
    · exact h3 hm1
    · rcases List.mem_cons.mp hm1 with hm2 | hm2
      · exact absurd hm2 (by decide)
      · exact h5 hm2
  · exact unsplit_no_hash h1 h2 h3 h4 h6

/-- If a non-empty relative link contains no `'#'`, neither does the output
of `urljoin` on it (needed because `urldefrag` re-splits its argument and
could otherwise raise). -/
theorem urljoin_no_hash {b u nl : List Char} (hu : '#' ∉ u) (hune : u ≠ [])
    (h : pyUrljoin b u = some nl) : '#' ∉ nl := by
  have hslash : ¬(('#' : Char) = '/') := by decide
  unfold pyUrljoin at h
  by_cases hbase : b = []
  · rw [if_pos hbase] at h
    cases h
    exact hu
  · rw [if_neg hbase, if_neg hune] at h
    rcases hbp : pyUrlparse b [] with _ | ⟨bs, bparams⟩
    · rw [hbp] at h; cases h
    · rw [hbp] at h
      dsimp only at h
      rcases hup : pyUrlparse u bs.scheme with _ | ⟨us, uparams⟩
      · rw [hup] at h; cases h
      · rw [hup] at h
        dsimp only at h
        obtain ⟨hbs1, hbs2, hbs3, hbs4, hbp5⟩ := urlparse_no_hash hbp (by simp)
        obtain ⟨hus1, hus2, hus3, hus4, hup5⟩ := urlparse_no_hash hup hbs1
        have husf : us.fragment = [] := urlparse_fragment_empty hu hup
        split_ifs at h <;> cases h <;>
          first
            | exact hu
            | exact unparse_no_hash hus1 hus2 hus3 hus4 hup5 husf
            | exact unparse_no_hash hus1 hbs2 hbs3 hbs4 hbp5 husf
            | exact unparse_no_hash hus1 hus2 hbs3 hbs4 hbp5 husf
            | exact unparse_no_hash hus1 hbs2 hbs3 hus4 hbp5 husf
            | exact unparse_no_hash hus1 hus2 hbs3 hus4 hbp5 husf
            | (refine unparse_no_hash hus1 hbs2 (fun hm => ?_) hus4 hup5 husf;
               rcases mem_joinPath hm with h2 | h2 | h2;
               exacts [absurd h2 hslash, absurd h2 hbs3, absurd h2 hus3])
            | (refine unparse_no_hash hus1 hus2 (fun hm => ?_) hus4 hup5 husf;
               rcases mem_joinPath hm with h2 | h2 | h2;
               exacts [absurd h2 hslash, absurd h2 hbs3, absurd h2 hus3])

/-! ## Totality of the validity check on well-formed inputs -/

theorem splitScheme_snd_indep (u d1 d2 : List Char) :
    (splitScheme u d1).2 = (splitScheme u d2).2 := by
  unfold splitScheme
  rcases splitFirst ':' u with _ | ⟨pre, post⟩
  · rfl
  · dsimp only
    split_ifs <;> rfl

theorem urlsplit_isSome_indep (u d : List Char) :
    (pyUrlsplit u d).isSome = (pyUrlsplit u []).isSome := by
  unfold pyUrlsplit
  rw [splitScheme_snd_indep u d []]
  rcases splitNetlocPart (splitScheme u []).2 with _ | ⟨nl, u2⟩ <;> rfl

theorem urlparse_isSome (u d : List Char) :
    (pyUrlparse u d).isSome = (pyUrlsplit u d).isSome := by
  unfold pyUrlparse
  rcases pyUrlsplit u d with _ | s
  · rfl
  · dsimp only
    split_ifs <;> rfl

theorem urljoin_isSome {b u : List Char} (hb : (pyUrlsplit b []).isSome)
    (hu : (pyUrlsplit u []).isSome) : (pyUrljoin b u).isSome := by
  unfold pyUrljoin
  split_ifs with h1 h2
  · simp
  · simp
  · have hbp : (pyUrlparse b []).isSome = true := by
      rw [urlparse_isSome]; exact hb
    rcases hbp2 : pyUrlparse b [] with _ | ⟨bs, bparams⟩
    · rw [hbp2] at hbp; simp at hbp
    · dsimp only
      have hup : (pyUrlparse u bs.scheme).isSome = true := by
        rw [urlparse_isSome, urlsplit_isSome_indep]; exact hu
      rcases hup2 : pyUrlparse u bs.scheme with _ | ⟨us, uparams⟩
      · rw [hup2] at hup; simp at hup
      · dsimp only
        split_ifs <;> simp

theorem normalizeLink_isSome {link parent : List Char} (hne : link ≠ [])
    (hl : (pyUrlsplit link []).isSome) (hp : (pyUrlsplit parent []).isSome)
    (hhash : link.head? = some '/' → '#' ∉ link) :
    (normalizeLink link parent).isSome := by
  unfold normalizeLink
  rcases hh : link.head? with _ | c0
  · exact absurd (List.head?_eq_none_iff.mp hh) hne
  · dsimp only
    by_cases hc : c0 = '/'
    · rw [if_pos hc]
      have hj := urljoin_isSome hp hl
      rcases hj2 : pyUrljoin parent link with _ | nl
      · rw [hj2] at hj; simp at hj
      · dsimp only
        have hnl : '#' ∉ nl :=
          urljoin_no_hash (hhash (by rw [hh, hc])) hne hj2
        rw [defrag_of_no_hash hnl]
        simp
    · rw [if_neg hc]
      dsimp only
      unfold pyUrldefrag
      split_ifs with hcont
      · rcases hs : pyUrlsplit link [] with _ | s
        · rw [hs] at hl; simp at hl
        · simp
      · simp

theorem hasRoot_isSome {cfg : CrawlerCfg} {link : List Char}
    (hl : (pyUrlsplit link []).isSome) : (hasRoot cfg link).isSome := by
  unfold hasRoot hasRootUrlOnly hasRootUrlOrSubdomain
  rcases hs : pyUrlsplit link [] with _ | s
  · rw [hs] at hl; simp at hl
  · split_ifs <;> simp

theorem validPrefixCheck_isSome {cfg : CrawlerCfg} {link : List Char}
    {c0 : Char} (hl : (pyUrlsplit link []).isSome) :
    (validPrefixCheck cfg link c0).isSome := by
  unfold validPrefixCheck
  by_cases hc : c0 = '/'
  · rw [if_pos hc]
    split_ifs <;> simp
  · rw [if_neg hc]
    have hx := @hasRoot_isSome cfg link hl
    rcases hR : hasRoot cfg link with _ | b
    · rw [hR] at hx; simp at hx
    · cases b
      · simp
      · dsimp only
        split_ifs <;> simp

/-! ## Claim C10: totality of the validity check -/

/-- C10 counterexample: the claim's totality on *all* non-empty links fails.
`"http://["` is a non-empty link on which `_is_valid_link` raises
`ValueError("Invalid IPv6 URL")` from `urlsplit` inside the root-host check
(modelled `none`). -/
theorem valid_link_ipv6_counterexample :
    pys "http://[" ≠ []
    ∧ isValidLink cfgStd (pys "http://[") (pys "https://google.com")
        = none := by
  exact ⟨by decide, rfl⟩

/-- C10 (amended): with `allowQueries=false` the validity check terminates
and returns a boolean on every non-empty candidate link and parent URL on
which the URL splitter itself does not raise — i.e. both URL-splits succeed
(balanced square brackets in any authority component) and, for a
root-relative link, no `'#'` occurs (otherwise `urljoin` can rebuild a
bracket-broken authority that the fragment-stripping re-split chokes on).
The empty string lies outside the check's domain: the unguarded `link[0]`
read raises `IndexError`. -/
theorem valid_link_total_on_wellformed :
    (∀ (cfg : CrawlerCfg) (link parent : List Char),
      cfg.allow_queries = false → link ≠ [] →
      (pyUrlsplit link []).isSome = true →
      (pyUrlsplit parent []).isSome = true →
      (link.head? = some '/' → '#' ∉ link) →
      (isValidLink cfg link parent).isSome = true)
    ∧ ∀ (cfg : CrawlerCfg) (parent : List Char),
      isValidLink cfg [] parent = none := by
  constructor
  · intro cfg link parent hq hne hl hp hhash
    unfold isValidLink
    rcases hh : link.head? with _ | c0
    · exact absurd (List.head?_eq_none_iff.mp hh) hne
    · dsimp only
      by_cases hc1 : c0 = '#'
      · rw [if_pos hc1]; simp
      · rw [if_neg hc1]
        have hvp := @validPrefixCheck_isSome cfg link c0 hl
        rcases hb : validPrefixCheck cfg link c0 with _ | b
        · rw [hb] at hvp; simp at hvp
        · cases b
          · simp
          · dsimp only
            split_ifs with hext hqq
            · simp
            · rw [hq] at hqq; simp at hqq
            · have hn := normalizeLink_isSome hne hl hp hhash
              rcases hnl : normalizeLink link parent with _ | n
              · rw [hnl] at hn; simp at hn
              · dsimp only
                split_ifs <;> simp
  · intro cfg parent
    rfl

theorem valid_link_total_on_wellformed_witness :
    cfgStd.allow_queries = false
    ∧ pys "https://google.com/x" ≠ []
    ∧ (pyUrlsplit (pys "https://google.com/x") []).isSome = true
    ∧ (pyUrlsplit (pys "https://google.com") []).isSome = true
    ∧ (isValidLink cfgStd (pys "https://google.com/x")
        (pys "https://google.com")).isSome = true :=
  ⟨rfl, by decide, by decide, by decide,
    valid_link_total_on_wellformed.1 cfgStd (pys "https://google.com/x")
      (pys "https://google.com") rfl (by decide) (by decide) (by decide)
      (by decide)⟩

/-! ## Small state-update lemmas -/

theorem addToSet_mem {l : List (List Char)} {x y : List Char} (h : x ∈ l) :
    x ∈ addToSet l y := by
  unfold addToSet
  split_ifs
  · exact h
  · exact List.mem_append.mpr (Or.inl h)

theorem tallyBump_get : ∀ (t : List (List Char × Nat)) (k : List Char),
    tallyGet (tallyBump t k) k = tallyGet t k + 1 := by
  intro t k
  induction t with
  | nil =>
    simp [tallyGet, tallyBump]
  | cons e t ih =>
    by_cases he : e.1 = k
    · have hany : (e :: t).any (fun x => x.1 = k) = true := by
        simp [List.any_cons, he]
      unfold tallyBump
      rw [if_pos hany]
      unfold tallyGet
      rw [List.map_cons, if_pos he,
        List.find?_cons_of_pos _ (by simp [he]),
        List.find?_cons_of_pos _ (by simp [he])]
    · have hskip : ∀ (rest : List (List Char × Nat)),
          tallyGet (e :: rest) k = tallyGet rest k := by
        intro rest
        unfold tallyGet
        rw [List.find?_cons_of_neg _ (by simp [he])]
      by_cases hany : t.any (fun x => x.1 = k)
      · have hany2 : (e :: t).any (fun x => x.1 = k) = true := by
          simp [List.any_cons, hany]
        unfold tallyBump
        rw [if_pos hany2, List.map_cons, if_neg he]
        rw [hskip, hskip]
        have : t.map (fun x => if x.1 = k then (x.1, x.2 + 1) else x)
            = tallyBump t k := by
          unfold tallyBump
          rw [if_pos hany]
        rw [this, ih]
      · have hany2 : (e :: t).any (fun x => x.1 = k) = false := by
          simp only [List.any_cons, Bool.or_eq_false_iff]
          constructor
          · simpa using he
          · exact eq_false_of_ne_true hany
        unfold tallyBump
        rw [if_neg (by simp [hany2])]
        rw [List.cons_append, hskip, hskip]
        have : t ++ [(k, 1)] = tallyBump t k := by
          unfold tallyBump
          rw [if_neg hany]
        rw [this, ih]

theorem nxAddNode_mem (ns : List GraphNode) (i : Nat)
    (url title : Option (List Char)) :
    ∃ nd ∈ nxAddNode ns i url title,
      nd.id = i ∧ nd.url = url ∧ nd.title = title := by
  unfold nxAddNode
  split_ifs with h
  · rw [List.any_eq_true] at h
    obtain ⟨m, hm, hmi⟩ := h
    rw [decide_eq_true_eq] at hmi
    refine ⟨{ m with url := url, title := title }, ?_, by simp [hmi], rfl, rfl⟩
    exact List.mem_map.mpr ⟨m, hm, by rw [if_pos hmi]⟩
  · exact ⟨⟨i, url, title⟩, by simp, rfl, rfl, rfl⟩

theorem nxAddNode_fresh {ns : List GraphNode} {i : Nat}
    {url title : Option (List Char)}
    (h : ∀ nd ∈ ns, nd.id ≠ i) :
    nxAddNode ns i url title = ns ++ [⟨i, url, title⟩] := by
  unfold nxAddNode
  rw [if_neg]
  intro hc
  rw [List.any_eq_true] at hc
  obtain ⟨m, hm, hmi⟩ := hc
  rw [decide_eq_true_eq] at hmi
  exact h m hm hmi

theorem nxEnsureNode_present {ns : List GraphNode} {i : Nat}
    (h : ∃ nd ∈ ns, nd.id = i) : nxEnsureNode ns i = ns := by
  unfold nxEnsureNode
  rw [if_pos]
  obtain ⟨nd, hnd, hi⟩ := h
  rw [List.any_eq_true]
  exact ⟨nd, hnd, by simp [hi]⟩

theorem nxAddEdge_mem (es : List (Nat × Nat)) (p c : Nat) :
    (p, c) ∈ nxAddEdge es p c := by
  unfold nxAddEdge
  split_ifs with h
  · exact h
  · simp

theorem nxAddEdge_fresh {es : List (Nat × Nat)} {p c : Nat}
    (h : (p, c) ∉ es) : nxAddEdge es p c = es ++ [(p, c)] := by
  unfold nxAddEdge
  rw [if_neg h]

/-- Every link yielded by `_filter_links` is new (not in the crawled set)
and fragment-free. -/
theorem filterLinks_mem {cfg : CrawlerCfg} {crawled : List (List Char)}
    {links : List (List Char)} {parent : List Char} {out : List (List Char)}
    (h : filterLinks cfg crawled links parent = some out) :
    ∀ u ∈ out, u ∉ crawled ∧ '#' ∉ u := by
  induction links generalizing out with
  | nil =>
    unfold filterLinks at h
    cases h
    intro u hu
    cases hu
  | cons l ls ih =>
    unfold filterLinks at h
    rcases hv : isValidLink cfg l parent with _ | b
    · rw [hv] at h; cases h
    · rw [hv] at h
      cases b
      · exact ih h
      · dsimp only at h
        rcases hq : (if cfg.allow_queries then some l else removeQuery l) with
          _ | l1
        · rw [hq] at h; cases h
        · rw [hq] at h
          dsimp only at h
          rcases hn : normalizeLink l1 parent with _ | l2
          · rw [hn] at h; cases h
          · rw [hn] at h
            dsimp only at h
            rcases hr : filterLinks cfg crawled ls parent with _ | rest
            · rw [hr] at h; cases h
            · rw [hr] at h
              cases h
              intro u hu
              split_ifs at hu with hc
              · exact ih hr u hu
              · rcases List.mem_cons.mp hu with hu1 | hu1
                · subst hu1
                  exact ⟨hc, (normalizeLink_spec hn).1⟩
                · exact ih hr u hu1

/-! ## Unchanged-field lemmas for the submission step -/

theorem submitLink_crawled (st : CrawlState) (u : List Char) (pid dep : Nat) :
    (submitLink st u pid dep).crawled_links = st.crawled_links := by
  unfold submitLink queuePut
  split_ifs <;> rfl

theorem submitLink_nodes (st : CrawlState) (u : List Char) (pid dep : Nat) :
    (submitLink st u pid dep).nodes = st.nodes := by
  unfold submitLink queuePut
  split_ifs <;> rfl

theorem submitLink_edges (st : CrawlState) (u : List Char) (pid dep : Nat) :
    (submitLink st u pid dep).edges = st.edges := by
  unfold submitLink queuePut
  split_ifs <;> rfl

theorem submitLink_done (st : CrawlState) (u : List Char) (pid dep : Nat) :
    (submitLink st u pid dep).done_count = st.done_count := by
  unfold submitLink queuePut
  split_ifs <;> rfl

theorem foldSubmit_done (pid dep : Nat) : ∀ (out : List (List Char))
    (st : CrawlState),
    (out.foldl (fun s u => submitLink s u pid dep) st).done_count
      = st.done_count := by
  intro out
  induction out with
  | nil => intro st; rfl
  | cons u us ih =>
    intro st
    rw [List.foldl_cons, ih, submitLink_done]

theorem nxEnsureNode_mem_of {ns : List GraphNode} {nd : GraphNode}
    (h : nd ∈ ns) (i : Nat) : nd ∈ nxEnsureNode ns i := by
  unfold nxEnsureNode
  split_ifs
  · exact h
  · exact List.mem_append.mpr (Or.inl h)

/-! ## The invariant is preserved by a single link submission -/

theorem submitLink_inv {cfg : CrawlerCfg} {st : CrawlState} {extra : Nat}
    {u : List Char} {pid dep : Nat}
    (h : GInv cfg st extra)
    (hu : u ∉ st.crawled_links) (hh : '#' ∉ u) (hdep : dep ≠ 0)
    (hpid : ∃ nd ∈ st.nodes, nd.id = pid ∧ nd.url ≠ none) :
    GInv cfg (submitLink st u pid dep) extra := by
  unfold submitLink
  by_cases hmem : u ∈ st.added_tasks
  · rw [if_pos hmem]
    exact h
  · rw [if_neg hmem]
    have hitem : (u, pid, dep) ∉ st.all_items := by
      intro hc
      rcases h.items_tracked _ hc with hc1 | hc1
      · exact hmem hc1
      · exact hdep (congrArg (fun t => t.2.2) hc1)
    unfold queuePut
    rw [if_neg hitem]
    dsimp only
    constructor
    · -- ids_eq
      dsimp only
      rw [List.map_append, h.ids_eq, List.map_singleton]
      dsimp only
      rw [List.range'_concat]
      congr 1
      have : 1 + 1 * st.items_added = st.items_added + 1 := by omega
      rw [this]
    · -- urls_nodup
      dsimp only
      rw [List.map_append, List.map_singleton]
      refine List.Nodup.append h.urls_nodup (List.nodup_singleton _) ?_
      intro a ha hau
      rw [List.mem_singleton] at hau
      subst hau
      obtain ⟨j, hj, hju⟩ := List.mem_map.mp ha
      rcases h.jobs_tracked j hj with hj1 | ⟨hj1, -⟩
      · exact hmem (hju ▸ hj1)
      · rcases h.seed_crawled with hs | hs
        · exact hu (hju ▸ hj1 ▸ hs)
        · exact hh (hju ▸ hj1 ▸ hs)
    · -- jobs_tracked
      intro j hj
      rcases List.mem_append.mp hj with hj1 | hj1
      · rcases h.jobs_tracked j hj1 with hj2 | hj2
        · exact Or.inl (List.mem_append.mpr (Or.inl hj2))
        · exact Or.inr hj2
      · rw [List.mem_singleton] at hj1
        subst hj1
        exact Or.inl (List.mem_append.mpr (Or.inr (List.mem_singleton.mpr rfl)))
    · -- items_tracked
      intro t ht
      rcases List.mem_append.mp ht with ht1 | ht1
      · rcases h.items_tracked t ht1 with ht2 | ht2
        · exact Or.inl (List.mem_append.mpr (Or.inl ht2))
        · exact Or.inr ht2
      · rw [List.mem_singleton] at ht1
        subst ht1
        exact Or.inl (List.mem_append.mpr (Or.inr (List.mem_singleton.mpr rfl)))
    · -- seed_crawled
      exact h.seed_crawled
    · -- unfinished_eq
      dsimp only
      rw [List.length_append, h.unfinished_eq]
      simp only [List.length_singleton]
      omega
    · -- node_zero
      exact h.node_zero
    · -- queue_parent
      intro j hj
      rcases List.mem_append.mp hj with hj1 | hj1
      · exact h.queue_parent j hj1
      · rw [List.mem_singleton] at hj1
        subst hj1
        exact hpid
    · -- queue_id_pos
      intro j hj
      rcases List.mem_append.mp hj with hj1 | hj1
      · exact h.queue_id_pos j hj1
      · rw [List.mem_singleton] at hj1
        subst hj1
        exact Nat.succ_ne_zero _
    · -- queue_id_le
      intro j hj
      rcases List.mem_append.mp hj with hj1 | hj1
      · exact Nat.le_succ_of_le (h.queue_id_le j hj1)
      · rw [List.mem_singleton] at hj1
        subst hj1
        exact Nat.le_refl _
    · -- queue_id_fresh
      intro j hj nd hnd
      rcases List.mem_append.mp hj with hj1 | hj1
      · exact h.queue_id_fresh j hj1 nd hnd
      · rw [List.mem_singleton] at hj1
        subst hj1
        have := h.nodes_le nd hnd
        show nd.id ≠ st.items_added + 1
        omega
    · -- queue_ids_nodup
      dsimp only
      rw [List.map_append, List.map_singleton]
      refine List.Nodup.append h.queue_ids_nodup (List.nodup_singleton _) ?_
      intro a ha hau
      rw [List.mem_singleton] at hau
      subst hau
      obtain ⟨j, hj, hji⟩ := List.mem_map.mp ha
      have hji2 : j.id = st.items_added + 1 := hji
      have := h.queue_id_le j hj
      omega
    · -- nodes_le
      intro nd hnd
      exact Nat.le_succ_of_le (h.nodes_le nd hnd)
    · -- edge_src
      exact h.edge_src
    · -- edge_tgt
      exact h.edge_tgt
    · -- edge_tgt_pos
      exact h.edge_tgt_pos
    · -- incoming_once
      exact h.incoming_once

/-! ## The invariant is preserved by the whole expansion fold -/

theorem foldSubmit_inv {cfg : CrawlerCfg} {pid dep : Nat} (hdep : dep ≠ 0) :
    ∀ (out : List (List Char)) (st : CrawlState) (extra : Nat),
    GInv cfg st extra →
    (∀ u ∈ out, u ∉ st.crawled_links ∧ '#' ∉ u) →
    (∃ nd ∈ st.nodes, nd.id = pid ∧ nd.url ≠ none) →
    GInv cfg (out.foldl (fun s u => submitLink s u pid dep) st) extra := by
  intro out
  induction out with
  | nil =>
    intro st extra h _ _
    exact h
  | cons u us ih =>
    intro st extra h hout hpid
    rw [List.foldl_cons]
    refine ih _ _ ?_ ?_ ?_
    · exact submitLink_inv h (hout u (List.mem_cons_self u us)).1
        (hout u (List.mem_cons_self u us)).2 hdep hpid
    · intro v hv
      rw [submitLink_crawled]
      exact hout v (List.mem_cons_of_mem _ hv)
    · rw [submitLink_nodes]
      exact hpid

/-! ## The graph-recording step on a fresh page id -/

theorem addGraphEdge_eq {st : CrawlState} {nid pid : Nat} {url title : List Char}
    (hfresh : ∀ nd ∈ st.nodes, nd.id ≠ nid)
    (hpar : ∃ nd ∈ st.nodes, nd.id = pid)
    (hefresh : (pid, nid) ∉ st.edges) :
    addGraphEdge st nid pid url title =
      { st with nodes := st.nodes ++ [⟨nid, some url, some title⟩],
                edges := st.edges ++ [(pid, nid)] } := by
  unfold addGraphEdge
  rw [nxAddNode_fresh hfresh]
  dsimp only
  have h1 : nxEnsureNode (st.nodes ++ [⟨nid, some url, some title⟩]) pid
      = st.nodes ++ [⟨nid, some url, some title⟩] := by
    obtain ⟨nd, hnd, hi⟩ := hpar
    exact nxEnsureNode_present ⟨nd, List.mem_append.mpr (Or.inl hnd), hi⟩
  rw [h1]
  have h2 : nxEnsureNode (st.nodes ++ [⟨nid, some url, some title⟩]) nid
      = st.nodes ++ [⟨nid, some url, some title⟩] := by
    exact nxEnsureNode_present
      ⟨⟨nid, some url, some title⟩,
       List.mem_append.mpr (Or.inr (List.mem_singleton.mpr rfl)), rfl⟩
  rw [h2, nxAddEdge_fresh hefresh]

theorem addGraphEdge_inv {cfg : CrawlerCfg} {st : CrawlState} {extra : Nat}
    {nid pid : Nat} {url title : List Char}
    (h : GInv cfg st extra)
    (hfresh : ∀ nd ∈ st.nodes, nd.id ≠ nid)
    (hpar : ∃ nd ∈ st.nodes, nd.id = pid ∧ nd.url ≠ none)
    (hpos : nid ≠ 0) (hle : nid ≤ st.items_added)
    (hqfresh : ∀ j ∈ st.queue, j.id ≠ nid) :
    GInv cfg { st with nodes := st.nodes ++ [⟨nid, some url, some title⟩],
                       edges := st.edges ++ [(pid, nid)] } extra := by
  have hnotgt : ∀ e ∈ st.edges, e.2 ≠ nid := by
    intro e he hc
    obtain ⟨nd, hnd, hi⟩ := h.edge_tgt e he
    exact hfresh nd hnd (hi.trans hc)
  constructor
  · exact h.ids_eq
  · exact h.urls_nodup
  · exact h.jobs_tracked
  · exact h.items_tracked
  · exact h.seed_crawled
  · exact h.unfinished_eq
  · -- node_zero
    obtain ⟨nd, hnd, hi, hurl⟩ := h.node_zero
    exact ⟨nd, List.mem_append.mpr (Or.inl hnd), hi, hurl⟩
  · -- queue_parent
    intro j hj
    obtain ⟨nd, hnd, hi, hurl⟩ := h.queue_parent j hj
    exact ⟨nd, List.mem_append.mpr (Or.inl hnd), hi, hurl⟩
  · exact h.queue_id_pos
  · exact h.queue_id_le
  · -- queue_id_fresh
    intro j hj nd hnd
    rcases List.mem_append.mp hnd with hnd1 | hnd1
    · exact h.queue_id_fresh j hj nd hnd1
    · rw [List.mem_singleton] at hnd1
      subst hnd1
      exact fun hc => hqfresh j hj hc.symm
  · exact h.queue_ids_nodup
  · -- nodes_le
    intro nd hnd
    rcases List.mem_append.mp hnd with hnd1 | hnd1
    · exact h.nodes_le nd hnd1
    · rw [List.mem_singleton] at hnd1
      subst hnd1
      exact hle
  · -- edge_src
    intro e he
    rcases List.mem_append.mp he with he1 | he1
    · obtain ⟨nd, hnd, hi, hurl⟩ := h.edge_src e he1
      exact ⟨nd, List.mem_append.mpr (Or.inl hnd), hi, hurl⟩
    · rw [List.mem_singleton] at he1
      subst he1
      obtain ⟨nd, hnd, hi, hurl⟩ := hpar
      exact ⟨nd, List.mem_append.mpr (Or.inl hnd), hi, hurl⟩
  · -- edge_tgt
    intro e he
    rcases List.mem_append.mp he with he1 | he1
    · obtain ⟨nd, hnd, hi⟩ := h.edge_tgt e he1
      exact ⟨nd, List.mem_append.mpr (Or.inl hnd), hi⟩
    · rw [List.mem_singleton] at he1
      subst he1
      exact ⟨⟨nid, some url, some title⟩,
        List.mem_append.mpr (Or.inr (List.mem_singleton.mpr rfl)), rfl⟩
  · -- edge_tgt_pos
    intro e he
    rcases List.mem_append.mp he with he1 | he1
    · exact h.edge_tgt_pos e he1
    · rw [List.mem_singleton] at he1
      subst he1
      exact hpos
  · -- incoming_once
    intro nd hnd hnd0
    rw [List.filter_append]
    rcases List.mem_append.mp hnd with hnd1 | hnd1
    · have hskip : List.filter (fun e => e.2 == nd.id) [(pid, nid)] = [] := by
        have hne : nid ≠ nd.id := fun hc => hfresh nd hnd1 hc.symm
        simp [hne]
      rw [hskip, List.append_nil]
      exact h.incoming_once nd hnd1 hnd0
    · rw [List.mem_singleton] at hnd1
      subst hnd1
      have hnil : List.filter (fun e => e.2 == (⟨nid, some url, some title⟩ :
          GraphNode).id) st.edges = [] := by
        rw [List.filter_eq_nil_iff]
        intro e he
        have := hnotgt e he
        simp [this]
      rw [hnil, List.nil_append]
      simp

/-! ## The invariant is preserved by processing one taken job -/

theorem processLink_inv {cfg : CrawlerCfg} {w : World} {st : CrawlState}
    {job : CrawlJob} {extra : Nat} {st2 : CrawlState}
    (h : GInv cfg st extra)
    (hpar : ∃ nd ∈ st.nodes, nd.id = job.parent_id ∧ nd.url ≠ none)
    (hfresh : ∀ nd ∈ st.nodes, nd.id ≠ job.id)
    (hpos : job.id ≠ 0) (hle : job.id ≤ st.items_added)
    (hqfresh : ∀ j ∈ st.queue, j.id ≠ job.id)
    (hp : processLink cfg w st job = some st2) :
    GInv cfg st2 extra := by
  unfold processLink at hp
  rcases hfetch : w job.url with ⟨title, links⟩ | etype
  · rw [hfetch] at hp
    dsimp only at hp
    have h1 : GInv cfg
        { st with crawled_links := addToSet st.crawled_links job.url } extra := by
      refine ⟨h.ids_eq, h.urls_nodup, h.jobs_tracked, h.items_tracked, ?_,
        h.unfinished_eq, h.node_zero, h.queue_parent, h.queue_id_pos,
        h.queue_id_le, h.queue_id_fresh, h.queue_ids_nodup, h.nodes_le,
        h.edge_src, h.edge_tgt, h.edge_tgt_pos, h.incoming_once⟩
      rcases h.seed_crawled with hs | hs
      · exact Or.inl (addToSet_mem hs)
      · exact Or.inr hs
    have hefresh : (job.parent_id, job.id) ∉ st.edges := by
      intro hc
      obtain ⟨nd, hnd, hi⟩ := h.edge_tgt _ hc
      exact hfresh nd hnd hi
    have hae := @addGraphEdge_eq
      { st with crawled_links := addToSet st.crawled_links job.url }
      job.id job.parent_id job.url title hfresh
      (hpar.imp (fun nd hnd => ⟨hnd.1, hnd.2.1⟩)) hefresh
    rw [hae] at hp
    dsimp only at hp
    have h2 := @addGraphEdge_inv cfg
      { st with crawled_links := addToSet st.crawled_links job.url } extra
      job.id job.parent_id job.url title h1 hfresh hpar hpos hle hqfresh
    split at hp
    · rcases hfl : filterLinks cfg (addToSet st.crawled_links job.url) links
        job.url with _ | out
      · rw [hfl] at hp
        cases hp
      · rw [hfl] at hp
        dsimp only at hp
        cases hp
        refine foldSubmit_inv (Nat.succ_ne_zero job.depth) out _ extra h2 ?_ ?_
        · intro u hu
          exact filterLinks_mem hfl u hu
        · exact ⟨⟨job.id, some job.url, some title⟩,
            List.mem_append.mpr (Or.inr (List.mem_singleton.mpr rfl)), rfl,
            by simp⟩
    · cases hp
      exact h2
  · rw [hfetch] at hp
    dsimp only at hp
    cases hp
    exact ⟨h.ids_eq, h.urls_nodup, h.jobs_tracked, h.items_tracked,
      h.seed_crawled, h.unfinished_eq, h.node_zero, h.queue_parent,
      h.queue_id_pos, h.queue_id_le, h.queue_id_fresh, h.queue_ids_nodup,
      h.nodes_le, h.edge_src, h.edge_tgt, h.edge_tgt_pos, h.incoming_once⟩

/-- Processing a job never touches the `task_done` counter. -/
theorem processLink_done {cfg : CrawlerCfg} {w : World} {st : CrawlState}
    {job : CrawlJob} {st1 : CrawlState}
    (hp : processLink cfg w st job = some st1) :
    st1.done_count = st.done_count := by
  unfold processLink at hp
  rcases hfetch : w job.url with ⟨title, links⟩ | etype
  · rw [hfetch] at hp
    dsimp only at hp
    split at hp
    · split at hp
      · cases hp
      · cases hp
        rw [foldSubmit_done]
        rfl
    · cases hp
      rfl
  · rw [hfetch] at hp
    dsimp only at hp
    cases hp
    rfl

/-! ## The invariant is preserved by a full worker iteration -/

theorem workerStep_inv {cfg : CrawlerCfg} {w : World} {st st' : CrawlState}
    (h : GInv cfg st 0) (hw : workerStep cfg w st = some st') :
    GInv cfg st' 0 := by
  unfold workerStep at hw
  rcases hq : st.queue with _ | ⟨job, rest⟩
  · rw [hq] at hw
    dsimp only at hw
    cases hw
    exact h
  · rw [hq] at hw
    dsimp only at hw
    have hjob : job ∈ st.queue := by
      rw [hq]
      exact List.mem_cons_self job rest
    have htl : ∀ j ∈ rest, j ∈ st.queue := by
      intro j hj
      rw [hq]
      exact List.mem_cons_of_mem _ hj
    have hndp := h.queue_ids_nodup
    rw [hq, List.map_cons] at hndp
    have hstep : GInv cfg { st with queue := rest } 1 := by
      refine ⟨h.ids_eq, h.urls_nodup, h.jobs_tracked, h.items_tracked,
        h.seed_crawled, ?_, h.node_zero,
        fun j hj => h.queue_parent j (htl j hj),
        fun j hj => h.queue_id_pos j (htl j hj),
        fun j hj => h.queue_id_le j (htl j hj),
        fun j hj => h.queue_id_fresh j (htl j hj),
        (List.nodup_cons.mp hndp).2, h.nodes_le,
        h.edge_src, h.edge_tgt, h.edge_tgt_pos, h.incoming_once⟩
      show st.unfinished = rest.length + 1
      rw [h.unfinished_eq, hq]
      simp
    have hqf : ∀ j ∈ rest, j.id ≠ job.id := by
      intro j hj hc
      exact (List.nodup_cons.mp hndp).1
        (hc ▸ List.mem_map.mpr ⟨j, hj, rfl⟩)
    rcases hp : processLink cfg w { st with queue := rest } job with _ | st1
    · rw [hp] at hw
      cases hw
    · rw [hp] at hw
      dsimp only at hw
      cases hw
      have h2 := processLink_inv hstep (h.queue_parent job hjob)
        (fun nd hnd => h.queue_id_fresh job hjob nd hnd)
        (h.queue_id_pos job hjob) (h.queue_id_le job hjob) hqf hp
      refine ⟨h2.ids_eq, h2.urls_nodup, h2.jobs_tracked, h2.items_tracked,
        h2.seed_crawled, ?_, h2.node_zero, h2.queue_parent, h2.queue_id_pos,
        h2.queue_id_le, h2.queue_id_fresh, h2.queue_ids_nodup, h2.nodes_le,
        h2.edge_src, h2.edge_tgt, h2.edge_tgt_pos, h2.incoming_once⟩
      show st1.unfinished - 1 = st1.queue.length + 0
      rw [h2.unfinished_eq]
      omega

/-- When there is a job to take, the surviving worker iteration performs
exactly one `task_done()`. -/
theorem workerStep_done {cfg : CrawlerCfg} {w : World} {st st' : CrawlState}
    (hne : st.queue ≠ []) (hw : workerStep cfg w st = some st') :
    st'.done_count = st.done_count + 1 := by
  unfold workerStep at hw
  rcases hq : st.queue with _ | ⟨job, rest⟩
  · exact absurd hq hne
  · rw [hq] at hw
    dsimp only at hw
    rcases hp : processLink cfg w { st with queue := rest } job with _ | st1
    · rw [hp] at hw
      cases hw
    · rw [hp] at hw
      dsimp only at hw
      cases hw
      show st1.done_count + 1 = st.done_count + 1
      rw [processLink_done hp]

/-! ## The invariant is preserved by any number of worker iterations -/

theorem runSteps_inv {cfg : CrawlerCfg} {w : World} :
    ∀ (n : Nat) {st st' : CrawlState}, GInv cfg st 0 →
    runSteps cfg w n st = some st' → GInv cfg st' 0 := by
  intro n
  induction n with
  | zero =>
    intro st st' h hr
    unfold runSteps at hr
    cases hr
    exact h
  | succ n ih =>
    intro st st' h hr
    unfold runSteps at hr
    rcases hw : workerStep cfg w st with _ | st1
    · rw [hw] at hr
      cases hr
    · rw [hw] at hr
      dsimp only at hr
      exact ih (workerStep_inv h hw) hr

/-! ## The invariant holds in the initial crawl state -/

theorem init_inv {a : CrawlArgs} {cfg : CrawlerCfg} {st : CrawlState}
    (h : initCrawler a = some (cfg, st)) : GInv cfg st 0 := by
  unfold initCrawler at h
  rcases hsp : pyUrlsplit a.start_url [] with _ | sp
  · rw [hsp] at h
    cases h
  · rw [hsp] at h
    rcases hn : normalizeLink a.start_url [] with _ | n0
    · rw [hn] at h
      cases h
    · rw [hn] at h
      dsimp only at h
      cases h
      unfold queuePut
      rw [if_neg (List.not_mem_nil _)]
      dsimp only
      constructor
      · -- ids_eq
        simp [List.range']
      · -- urls_nodup
        simp
      · -- jobs_tracked
        intro j hj
        simp only [List.nil_append, List.mem_singleton] at hj
        subst hj
        exact Or.inr ⟨rfl, rfl⟩
      · -- items_tracked
        intro t ht
        simp only [List.nil_append, List.mem_singleton] at ht
        subst ht
        exact Or.inr rfl
      · -- seed_crawled
        by_cases hhash : '#' ∈ a.start_url
        · exact Or.inr (mem_stripSlashes_of_mem hhash (by decide))
        · left
          have hns : n0 = pyStripSlashes a.start_url := by
            unfold normalizeLink at hn
            rcases hh : a.start_url.head? with _ | c0
            · rw [hh] at hn
              cases hn
            · rw [hh] at hn
              dsimp only at hn
              have hjoin : (if c0 = '/' then pyUrljoin [] a.start_url
                  else some a.start_url) = some a.start_url := by
                split_ifs
                · unfold pyUrljoin
                  rw [if_pos rfl]
                · rfl
              rw [hjoin] at hn
              dsimp only at hn
              rw [defrag_of_no_hash hhash] at hn
              dsimp only at hn
              cases hn
              rfl
          exact List.mem_singleton.mpr hns.symm
      · -- unfinished_eq
        simp
      · -- node_zero
        exact ⟨⟨0, some (pyStripSlashes a.start_url), none⟩,
          List.mem_singleton.mpr rfl, rfl, by simp⟩
      · -- queue_parent
        intro j hj
        simp only [List.nil_append, List.mem_singleton] at hj
        subst hj
        exact ⟨⟨0, some (pyStripSlashes a.start_url), none⟩,
          List.mem_singleton.mpr rfl, rfl, by simp⟩
      · -- queue_id_pos
        intro j hj
        simp only [List.nil_append, List.mem_singleton] at hj
        subst hj
        exact Nat.one_ne_zero
      · -- queue_id_le
        intro j hj
        simp only [List.nil_append, List.mem_singleton] at hj
        subst hj
        exact Nat.le_refl _
      · -- queue_id_fresh
        intro j hj nd hnd
        simp only [List.nil_append, List.mem_singleton] at hj hnd
        subst hj
        subst hnd
        simp
      · -- queue_ids_nodup
        simp
      · -- nodes_le
        intro nd hnd
        simp only [List.mem_singleton] at hnd
        subst hnd
        exact Nat.zero_le _
      · -- edge_src
        intro e he
        cases he
      · -- edge_tgt
        intro e he
        cases he
      · -- edge_tgt_pos
        intro e he
        cases he
      · -- incoming_once
        intro nd hnd hnd0
        simp only [List.mem_singleton] at hnd
        subst hnd
        exact absurd rfl hnd0

/-! ## Claim C1: frontier deduplication and contiguous ids -/

/-- C1: in every crawl state reachable from the constructor, the
queue-assigned ids of the jobs ever created form the contiguous strictly
increasing sequence `1, 2, ..., items_added`, the created jobs' URLs are
pairwise distinct (exactly one job per distinct URL), and a further
submission creates a job if and only if its URL is not already in the
visited set `added_tasks`. -/
theorem frontier_submit_dedup_and_contiguous_ids
    (a : CrawlArgs) (cfg : CrawlerCfg) (w : World) (n : Nat)
    (st0 st : CrawlState)
    (hinit : initCrawler a = some (cfg, st0))
    (hrun : runSteps cfg w n st0 = some st) :
    st.jobs_created.map (fun j => j.id) = List.range' 1 st.items_added ∧
    (st.jobs_created.map (fun j => j.url)).Nodup ∧
    (∀ u pid dep, dep ≠ 0 →
      (submitLink st u pid dep).jobs_created =
        if u ∈ st.added_tasks then st.jobs_created
        else st.jobs_created ++ [⟨st.items_added + 1, u, pid, dep⟩]) := by
  have h := runSteps_inv n (init_inv hinit) hrun
  refine ⟨h.ids_eq, h.urls_nodup, ?_⟩
  intro u pid dep hdep
  unfold submitLink
  split_ifs with hmem
  · rfl
  · have hitem : (u, pid, dep) ∉ st.all_items := by
      intro hc
      rcases h.items_tracked _ hc with hc1 | hc1
      · exact hmem hc1
      · exact hdep (congrArg (fun t => t.2.2) hc1)
    unfold queuePut
    rw [if_neg hitem]

theorem frontier_submit_dedup_and_contiguous_ids_witness :
    stFin.jobs_created.map (fun j => j.id) = List.range' 1 stFin.items_added ∧
    (stFin.jobs_created.map (fun j => j.url)).Nodup ∧
    (∀ u pid dep, dep ≠ 0 →
      (submitLink stFin u pid dep).jobs_created =
        if u ∈ stFin.added_tasks then stFin.jobs_created
        else stFin.jobs_created ++ [⟨stFin.items_added + 1, u, pid, dep⟩]) :=
  frontier_submit_dedup_and_contiguous_ids stdArgs cfgStd wOk 2 stSeed stFin
    (by rfl) (by rfl)

/-! ## Claim C5: task-done accounting -/

/-- C5 counterexample: with `allow_queries=True` the expansion of the seed
page hits the undefined-name similarity guard, the exception is not a
`FetchError`, the worker dies before `queue.task_done()`, and the taken job
is never marked done. -/
theorem worker_task_done_counterexample :
    initCrawler qArgs = some (cfgQueries, stSeed) ∧
    stSeed.queue ≠ [] ∧
    workerStep cfgQueries wOk stSeed = none := by
  refine ⟨by rfl, by decide, by rfl⟩

/-- C5 (amended): in every reachable crawl state the outstanding-job counter
equals the queue length (so `join()` unblocks exactly when the queue is
drained), and whenever a worker iteration takes a job and survives it, it
performs exactly one `task_done()`. -/
theorem worker_task_done_accounting
    (a : CrawlArgs) (cfg : CrawlerCfg) (w : World) (n : Nat)
    (st0 st : CrawlState)
    (hinit : initCrawler a = some (cfg, st0))
    (hrun : runSteps cfg w n st0 = some st) :
    st.unfinished = st.queue.length ∧
    (∀ st', st.queue ≠ [] → workerStep cfg w st = some st' →
      st'.done_count = st.done_count + 1) := by
  have h := runSteps_inv n (init_inv hinit) hrun
  have hu := h.unfinished_eq
  exact ⟨by omega, fun st' hne hw => workerStep_done hne hw⟩

theorem worker_task_done_accounting_witness :
    stFin.unfinished = stFin.queue.length ∧
    (∀ st', stFin.queue ≠ [] → workerStep cfgStd wOk stFin = some st' →
      st'.done_count = stFin.done_count + 1) :=
  worker_task_done_accounting stdArgs cfgStd wOk 2 stSeed stFin
    (by rfl) (by rfl)

/-! ## Claim C6: isolation of a 404 fetch failure -/

/-- C6: a job whose fetch raises `FetchError` with `error_type = "404"`
bumps `error_count["404"]` by exactly one, leaves the site graph (nodes and
edges) and the crawled set untouched, and still completes normally: the rest
of the queue is intact, `task_done()` runs, and the outstanding-job counter
drops by one. -/
theorem fetch_404_isolated (cfg : CrawlerCfg) (st st' : CrawlState)
    (job : CrawlJob) (rest : List CrawlJob)
    (hq : st.queue = job :: rest)
    (hw : workerStep cfg w404 st = some st') :
    st'.nodes = st.nodes ∧ st'.edges = st.edges ∧
    tallyGet st'.error_count (pys "404")
      = tallyGet st.error_count (pys "404") + 1 ∧
    st'.crawled_links = st.crawled_links ∧
    st'.queue = rest ∧
    st'.done_count = st.done_count + 1 ∧
    st'.unfinished = st.unfinished - 1 := by
  unfold workerStep at hw
  rw [hq] at hw
  dsimp only at hw
  unfold processLink at hw
  have h404 : w404 job.url = FetchOutcome.fail (pys "404") := rfl
  rw [h404] at hw
  dsimp only at hw
  cases hw
  refine ⟨rfl, rfl, ?_, rfl, rfl, rfl, rfl⟩
  exact tallyBump_get st.error_count (pys "404")

theorem fetch_404_isolated_witness :
    st404.nodes = stSeed.nodes ∧ st404.edges = stSeed.edges ∧
    tallyGet st404.error_count (pys "404")
      = tallyGet stSeed.error_count (pys "404") + 1 ∧
    st404.crawled_links = stSeed.crawled_links ∧
    st404.queue = [] ∧
    st404.done_count = stSeed.done_count + 1 ∧
    st404.unfinished = stSeed.unfinished - 1 :=
  fetch_404_isolated cfgStd stSeed st404 seedJob [] (by rfl) (by rfl)

/-! ## Claim C8: the depth bound -/

/-- C8 counterexample: with a configured depth bound of `0` and a taken job
whose depth `0` is greater than or equal to that bound, expansion is NOT
skipped — the falsy bound is treated as "no bound", the seed page's link is
submitted and a second job is created. -/
theorem depth_bound_zero_expands_counterexample :
    cfgDepth0.depth_by_desc = some 0 ∧ 0 ≤ seedJob.depth ∧
    (processLink cfgDepth0 wOk { stSeed with queue := [] } seedJob).map
      (fun s => s.jobs_created.length) = some 2 ∧
    stSeed.jobs_created.length = 1 := by
  refine ⟨rfl, by decide, by rfl, by rfl⟩

/-- C8 (amended): when the configured depth bound is positive and the taken
job's depth has reached it, the page is still recorded — its PageNode (with
URL and title) and its incoming edge are added — but link expansion is
skipped: no job is created, nothing is queued, and the visited set and
counters are untouched. -/
theorem depth_bound_positive_skips_expansion
    (cfg : CrawlerCfg) (w : World) (st : CrawlState) (job : CrawlJob)
    (d : Nat) (title : List Char) (links : List (List Char))
    (hd : cfg.depth_by_desc = some d) (hdpos : 0 < d) (hdepth : d ≤ job.depth)
    (hfetch : w job.url = FetchOutcome.ok title links) :
    ∃ st2, processLink cfg w st job = some st2 ∧
      st2.jobs_created = st.jobs_created ∧
      st2.queue = st.queue ∧
      st2.added_tasks = st.added_tasks ∧
      st2.items_added = st.items_added ∧
      st2.unfinished = st.unfinished ∧
      (∃ nd ∈ st2.nodes, nd.id = job.id ∧ nd.url = some job.url ∧
        nd.title = some title) ∧
      (job.parent_id, job.id) ∈ st2.edges := by
  unfold processLink
  rw [hfetch]
  dsimp only
  have hcond : (match cfg.depth_by_desc with
      | none => true
      | some d => decide (d = 0) || decide (job.depth < d)) = false := by
    rw [hd]
    dsimp only
    simp only [Bool.or_eq_false_iff, decide_eq_false_iff_not]
    omega
  rw [hcond, if_neg (by decide)]
  refine ⟨_, rfl, rfl, rfl, rfl, rfl, rfl, ?_, ?_⟩
  · obtain ⟨nd, hnd, hni, hnu, hnt⟩ :=
      nxAddNode_mem st.nodes job.id (some job.url) (some title)
    exact ⟨nd, nxEnsureNode_mem_of (nxEnsureNode_mem_of hnd job.parent_id)
      job.id, hni, hnu, hnt⟩
  · exact nxAddEdge_mem st.edges job.parent_id job.id

theorem depth_bound_positive_skips_expansion_witness :
    cfgDepth1.depth_by_desc = some 1 ∧ 0 < 1 ∧
    (1 ≤ (⟨2, pys "https://google.com/a.html", 1, 1⟩ : CrawlJob).depth) ∧
    (∃ st2, processLink cfgDepth1 wOk { stSeed with queue := [] }
        ⟨2, pys "https://google.com/a.html", 1, 1⟩ = some st2 ∧
      st2.jobs_created = ({ stSeed with queue := [] } : CrawlState).jobs_created ∧
      st2.queue = ({ stSeed with queue := [] } : CrawlState).queue ∧
      st2.added_tasks = ({ stSeed with queue := [] } : CrawlState).added_tasks ∧
      st2.items_added = ({ stSeed with queue := [] } : CrawlState).items_added ∧
      st2.unfinished = ({ stSeed with queue := [] } : CrawlState).unfinished ∧
      (∃ nd ∈ st2.nodes,
        nd.id = (⟨2, pys "https://google.com/a.html", 1, 1⟩ : CrawlJob).id ∧
        nd.url = some (⟨2, pys "https://google.com/a.html", 1, 1⟩ :
          CrawlJob).url ∧
        nd.title = some (pys "A")) ∧
      ((⟨2, pys "https://google.com/a.html", 1, 1⟩ : CrawlJob).parent_id,
        (⟨2, pys "https://google.com/a.html", 1, 1⟩ : CrawlJob).id)
        ∈ st2.edges) :=
  ⟨rfl, by decide, by decide,
    depth_bound_positive_skips_expansion cfgDepth1 wOk
      { stSeed with queue := [] } ⟨2, pys "https://google.com/a.html", 1, 1⟩
      1 (pys "A") [] rfl (by decide) (by decide) (by rfl)⟩

/-! ## Claim C9: well-formedness of the frozen site graph -/

/-- C9: in every reachable crawl state — in particular the final one, whose
graph `freeze()` serializes — the source node of every edge exists in the
graph, and every node other than the root node `0` has exactly one incoming
edge. -/
theorem graph_parent_edges_wellformed
    (a : CrawlArgs) (cfg : CrawlerCfg) (w : World) (n : Nat)
    (st0 st : CrawlState)
    (hinit : initCrawler a = some (cfg, st0))
    (hrun : runSteps cfg w n st0 = some st) :
    (∀ e ∈ st.edges, ∃ nd ∈ st.nodes, nd.id = e.1) ∧
    (∀ nd ∈ st.nodes, nd.id ≠ 0 →
      (st.edges.filter (fun e => e.2 == nd.id)).length = 1) := by
  have h := runSteps_inv n (init_inv hinit) hrun
  exact ⟨fun e he => (h.edge_src e he).imp (fun nd hnd => ⟨hnd.1, hnd.2.1⟩),
    h.incoming_once⟩

theorem graph_parent_edges_wellformed_witness :
    (∀ e ∈ stFin.edges, ∃ nd ∈ stFin.nodes, nd.id = e.1) ∧
    (∀ nd ∈ stFin.nodes, nd.id ≠ 0 →
      (stFin.edges.filter (fun e => e.2 == nd.id)).length = 1) :=
  graph_parent_edges_wellformed stdArgs cfgStd wOk 2 stSeed stFin
    (by rfl) (by rfl)
